import Mathlib

/-!
Verification development for the node module of a network-emulation system
(a shallow embedding of mininet/node.py).

Strings from the Python source are modelled as `List Char`; Python integers
as `Int` (or `Nat` where the source guarantees non-negativity); Python dicts
as insertion-ordered association lists with the exact overwrite/append and
delete semantics of dicts; fallible statements (KeyError, ValueError,
AssertionError, UnboundLocalError) as `Option`/`Except` results.
-/

set_option maxRecDepth 100000

namespace Mininet

/-- Character list of a string literal (Python `str` values). -/
def str (s : String) : List Char := s.data

/-- The control byte `chr(1)` used as pid delimiter. -/
def ctlA : Char := Char.ofNat 1

/-- The completion sentinel byte `chr(127)`. -/
def sentCh : Char := Char.ofNat 127

/-- Carriage return. -/
def crC : Char := Char.ofNat 13

/-- Line feed. -/
def lfC : Char := Char.ofNat 10

/-- Python regex `\d` on ASCII text: a decimal digit. -/
def isPyDigit (c : Char) : Bool := c.isDigit

/-- Python regex `\w` on ASCII text: letters, digits and underscore. -/
def isWordChar (c : Char) : Bool := c.isAlphanum || c = '_'

/-- The whitespace characters stripped by Python `int()`. -/
def isPyWS (c : Char) : Bool :=
  c = ' ' || c = Char.ofNat 9 || c = lfC || c = crC ||
  c = Char.ofNat 11 || c = Char.ofNat 12

/-- The decimal digit character for `n < 10`. -/
def digitChar (n : Nat) : Char := Char.ofNat (48 + n)

/-- Numeric value of a digit character. -/
def charVal (c : Char) : Nat := c.toNat - 48

/-- Value of a decimal digit string. -/
def digitsVal (l : List Char) : Nat := l.foldl (fun a c => 10 * a + charVal c) 0

/-- Fuel-driven accumulator loop producing the decimal digits of `n`. -/
def natGo : Nat → Nat → List Char → List Char
  | 0, _, acc => acc
  | f + 1, n, acc => if n = 0 then acc else natGo f (n / 10) (digitChar (n % 10) :: acc)

/-- Decimal representation of a natural number, as Python `repr`/`str`. -/
def natRepr (n : Nat) : List Char := if n = 0 then ['0'] else natGo (n + 1) n []

/-- Decimal representation of an integer, as Python `repr`/`str`. -/
def intRepr (i : Int) : List Char :=
  if i < 0 then '-' :: natRepr i.natAbs else natRepr i.natAbs

/-- Parse a non-empty all-digit string. -/
def parseDigits (l : List Char) : Option Nat :=
  if l ≠ [] ∧ l.all isPyDigit then some (digitsVal l) else none

/-- Strip leading and trailing whitespace, as Python `int()` does. -/
def stripWS (l : List Char) : List Char :=
  ((l.dropWhile isPyWS).reverse.dropWhile isPyWS).reverse

/-- Python `int(s)`: strips surrounding whitespace, accepts an optional sign
followed by a non-empty digit string; `none` models a `ValueError`. -/
def pyInt (l : List Char) : Option Int :=
  match stripWS l with
  | [] => none
  | c :: ds =>
    if c = '-' then (parseDigits ds).map (fun n => -(n : Int))
    else if c = '+' then (parseDigits ds).map (fun n => (n : Int))
    else (parseDigits (c :: ds)).map (fun n => (n : Int))

/-- Does `pat` begin the list `s`? -/
def startsL : List Char → List Char → Bool
  | [], _ => true
  | _ :: _, [] => false
  | a :: pat, b :: s => if a = b then startsL pat s else false

/-- Does `pat` occur in `s` starting at index `i`? -/
def occursAt (pat s : List Char) (i : Nat) : Bool := startsL pat (s.drop i)

/-- Python `s.find(pat)`: index of the first occurrence. -/
def findSub (pat s : List Char) : Option Nat :=
  ((List.range (s.length + 1)).filter (occursAt pat s)).head?

/-- Python `s.rfind(pat)`: index of the last occurrence. -/
def rfindSub (pat s : List Char) : Option Nat :=
  ((List.range (s.length + 1)).filter (occursAt pat s)).getLast?

/-- Python `c in s` for a single character. -/
def hasChar (s : List Char) (c : Char) : Bool := s.any (fun d => d = c)

/-- Python `s.replace(c, '')` for a single character. -/
def removeChar (s : List Char) (c : Char) : List Char := s.filter (fun d => decide (d ≠ c))

/-! ### Association lists with Python dict semantics -/

/-- Dict lookup: value of the first binding of key `k`. -/
def alookup {α β : Type} [DecidableEq α] : List (α × β) → α → Option β
  | [], _ => none
  | (a, b) :: t, k => if a = k then some b else alookup t k

/-- Dict assignment `d[k] = v`: overwrite in place, else append. -/
def ainsert {α β : Type} [DecidableEq α] : List (α × β) → α → β → List (α × β)
  | [], k, v => [(k, v)]
  | (a, b) :: t, k, v => if a = k then (k, v) :: t else (a, b) :: ainsert t k v

/-- Dict deletion `del d[k]`: remove the first binding of `k`. -/
def aerase {α β : Type} [DecidableEq α] : List (α × β) → α → List (α × β)
  | [], _ => []
  | (a, b) :: t, k => if a = k then t else (a, b) :: aerase t k

/-- Dict keys, in insertion order. -/
def akeys {α β : Type} (l : List (α × β)) : List α := l.map Prod.fst

theorem akeys_cons {α β : Type} (a : α) (b : β) (t : List (α × β)) :
    akeys ((a, b) :: t) = a :: akeys t := rfl

section AListLemmas

variable {α β : Type} [DecidableEq α]

theorem alookup_ainsert_self (l : List (α × β)) (k : α) (v : β) :
    alookup (ainsert l k v) k = some v := by
  induction l with
  | nil => simp [ainsert, alookup]
  | cons hd t ih =>
    obtain ⟨a, b⟩ := hd
    by_cases h : a = k
    · simp [ainsert, alookup, h]
    · simp [ainsert, alookup, h, ih]

theorem alookup_ainsert_ne (l : List (α × β)) {k k' : α} (v : β) (h : k' ≠ k) :
    alookup (ainsert l k v) k' = alookup l k' := by
  induction l with
  | nil => simp [ainsert, alookup, Ne.symm h]
  | cons hd t ih =>
    obtain ⟨a, b⟩ := hd
    by_cases ha : a = k
    · subst ha
      simp [ainsert, alookup, Ne.symm h]
    · simp [ainsert, alookup, ha, ih]

theorem alookup_eq_none_iff (l : List (α × β)) (k : α) :
    alookup l k = none ↔ k ∉ akeys l := by
  induction l with
  | nil => simp [alookup, akeys]
  | cons hd t ih =>
    obtain ⟨a, b⟩ := hd
    rw [akeys_cons]
    by_cases h : a = k
    · subst h
      simp [alookup]
    · simp only [alookup, if_neg h, ih, List.mem_cons]
      constructor
      · intro hh hor
        rcases hor with h1 | h1
        · exact h h1.symm
        · exact hh h1
      · intro hh h1
        exact hh (Or.inr h1)

theorem alookup_isSome_iff (l : List (α × β)) (k : α) :
    (alookup l k).isSome = true ↔ k ∈ akeys l := by
  constructor
  · intro h
    by_contra hk
    rw [(alookup_eq_none_iff l k).mpr hk] at h
    simp at h
  · intro hk
    rcases hmem : alookup l k with _ | v
    · exact absurd ((alookup_eq_none_iff l k).mp hmem) (by simp [hk])
    · simp

theorem ainsert_fresh (l : List (α × β)) (k : α) (v : β) (h : alookup l k = none) :
    ainsert l k v = l ++ [(k, v)] := by
  induction l with
  | nil => simp [ainsert]
  | cons hd t ih =>
    obtain ⟨a, b⟩ := hd
    by_cases ha : a = k
    · simp [alookup, ha] at h
    · simp only [alookup, if_neg ha] at h
      simp [ainsert, ha, ih h]

theorem aerase_append_fresh (l : List (α × β)) (k : α) (v : β) (h : alookup l k = none) :
    aerase (l ++ [(k, v)]) k = l := by
  induction l with
  | nil => simp [aerase]
  | cons hd t ih =>
    obtain ⟨a, b⟩ := hd
    by_cases ha : a = k
    · simp [alookup, ha] at h
    · simp only [alookup, if_neg ha] at h
      simp [aerase, ha, ih h]

theorem alookup_aerase_ne (l : List (α × β)) {k k' : α} (h : k' ≠ k) :
    alookup (aerase l k) k' = alookup l k' := by
  induction l with
  | nil => simp [aerase]
  | cons hd t ih =>
    obtain ⟨a, b⟩ := hd
    by_cases ha : a = k
    · subst ha
      simp [aerase, alookup, Ne.symm h]
    · simp [aerase, alookup, ha, ih]

theorem aerase_sublist (l : List (α × β)) (k : α) : (aerase l k).Sublist l := by
  induction l with
  | nil => simp [aerase]
  | cons hd t ih =>
    obtain ⟨a, b⟩ := hd
    by_cases ha : a = k
    · rw [show aerase ((a, b) :: t) k = t from by simp [aerase, ha]]
      exact List.sublist_cons_self _ _
    · rw [show aerase ((a, b) :: t) k = (a, b) :: aerase t k from by simp [aerase, ha]]
      exact ih.cons₂ _

theorem akeys_nodup_aerase (l : List (α × β)) (k : α) (h : (akeys l).Nodup) :
    (akeys (aerase l k)).Nodup := by
  have hs : (akeys (aerase l k)).Sublist (akeys l) := List.Sublist.map _ (aerase_sublist l k)
  exact h.sublist hs

theorem alookup_aerase_self (l : List (α × β)) (k : α) (h : (akeys l).Nodup) :
    alookup (aerase l k) k = none := by
  induction l with
  | nil => simp [aerase, alookup]
  | cons hd t ih =>
    obtain ⟨a, b⟩ := hd
    rw [akeys_cons, List.nodup_cons] at h
    by_cases ha : a = k
    · subst ha
      rw [show aerase ((a, b) :: t) a = t from by simp [aerase]]
      rw [alookup_eq_none_iff]
      exact h.1
    · rw [show aerase ((a, b) :: t) k = (a, b) :: aerase t k from by simp [aerase, ha]]
      simp only [alookup, if_neg ha]
      exact ih h.2

theorem mem_akeys_ainsert {l : List (α × β)} {k x : α} {v : β}
    (h : x ∈ akeys (ainsert l k v)) : x ∈ akeys l ∨ x = k := by
  induction l with
  | nil =>
    rw [show ainsert ([] : List (α × β)) k v = [(k, v)] from rfl, akeys_cons] at h
    rcases List.mem_cons.mp h with h1 | h1
    · right; exact h1
    · simp [akeys] at h1
  | cons hd t ih =>
    obtain ⟨a, b⟩ := hd
    by_cases ha : a = k
    · subst ha
      rw [show ainsert ((a, b) :: t) a v = (a, v) :: t from by simp [ainsert], akeys_cons] at h
      rcases List.mem_cons.mp h with h1 | h1
      · right; exact h1
      · left; rw [akeys_cons]; exact List.mem_cons_of_mem _ h1
    · rw [show ainsert ((a, b) :: t) k v = (a, b) :: ainsert t k v from by simp [ainsert, ha],
        akeys_cons] at h
      rcases List.mem_cons.mp h with h1 | h1
      · left; rw [akeys_cons]; exact h1 ▸ List.mem_cons_self _ _
      · rcases ih h1 with h2 | h2
        · left; rw [akeys_cons]; exact List.mem_cons_of_mem _ h2
        · right; exact h2

theorem akeys_ainsert_nodup (l : List (α × β)) (k : α) (v : β) (h : (akeys l).Nodup) :
    (akeys (ainsert l k v)).Nodup := by
  induction l with
  | nil => simp [ainsert, akeys]
  | cons hd t ih =>
    obtain ⟨a, b⟩ := hd
    rw [akeys_cons, List.nodup_cons] at h
    by_cases ha : a = k
    · subst ha
      rw [show ainsert ((a, b) :: t) a v = (a, v) :: t from by simp [ainsert], akeys_cons,
        List.nodup_cons]
      exact h
    · rw [show ainsert ((a, b) :: t) k v = (a, b) :: ainsert t k v from by simp [ainsert, ha],
        akeys_cons, List.nodup_cons]
      refine ⟨?_, ih h.2⟩
      intro hmem
      rcases mem_akeys_ainsert hmem with h1 | h1
      · exact h.1 h1
      · exact ha h1

theorem alookup_of_mem_nodup {l : List (α × β)} {k : α} {v : β}
    (h : (akeys l).Nodup) (hm : (k, v) ∈ l) : alookup l k = some v := by
  induction l with
  | nil => simp at hm
  | cons hd t ih =>
    obtain ⟨a, b⟩ := hd
    rw [akeys_cons, List.nodup_cons] at h
    rcases List.mem_cons.mp hm with h1 | h1
    · cases h1
      simp [alookup]
    · have hk : a ≠ k := by
        intro hak
        subst hak
        exact h.1 (List.mem_map.mpr ⟨(a, v), h1, rfl⟩)
      simp only [alookup, if_neg hk]
      exact ih h.2 h1

theorem mem_of_alookup {l : List (α × β)} {k : α} {v : β}
    (h : alookup l k = some v) : (k, v) ∈ l := by
  induction l with
  | nil => simp [alookup] at h
  | cons hd t ih =>
    obtain ⟨a, b⟩ := hd
    by_cases ha : a = k
    · subst ha
      have hb : b = v := by simpa [alookup] using h
      subst hb
      exact List.mem_cons_self _ _
    · simp only [alookup, if_neg ha] at h
      exact List.mem_cons_of_mem _ (ih h)

end AListLemmas

/-! ### Decimal representation and Python `int()` parsing lemmas -/

theorem digitsVal_from (i : Nat) (l : List Char) :
    l.foldl (fun a c => 10 * a + charVal c) i = i * 10 ^ l.length + digitsVal l := by
  induction l generalizing i with
  | nil => simp [digitsVal]
  | cons c t ih =>
    simp only [List.foldl_cons, digitsVal] at *
    rw [ih (10 * i + charVal c), ih (10 * 0 + charVal c)]
    simp only [List.length_cons, pow_succ]
    ring

theorem digitsVal_append (l m : List Char) :
    digitsVal (l ++ m) = digitsVal l * 10 ^ m.length + digitsVal m := by
  unfold digitsVal
  rw [List.foldl_append]
  rw [digitsVal_from]
  rfl

theorem charVal_digitChar (m : Nat) (h : m < 10) : charVal (digitChar m) = m := by
  interval_cases m <;> decide

theorem isPyDigit_digitChar (m : Nat) (h : m < 10) : isPyDigit (digitChar m) = true := by
  interval_cases m <;> decide

theorem natGo_append (f : Nat) : ∀ n acc, natGo f n acc = natGo f n [] ++ acc := by
  induction f with
  | zero => intro n acc; simp [natGo]
  | succ f ih =>
    intro n acc
    by_cases hn : n = 0
    · simp [natGo, hn]
    · rw [show natGo (f + 1) n acc = natGo f (n / 10) (digitChar (n % 10) :: acc) from by
        simp [natGo, hn]]
      rw [show natGo (f + 1) n [] = natGo f (n / 10) [digitChar (n % 10)] from by
        simp [natGo, hn]]
      rw [ih (n / 10) (digitChar (n % 10) :: acc), ih (n / 10) [digitChar (n % 10)]]
      simp

theorem natGo_digits (f : Nat) : ∀ n, n < f → ∀ c ∈ natGo f n [], isPyDigit c = true := by
  induction f with
  | zero => intro n hn; omega
  | succ f ih =>
    intro n hn c hc
    by_cases h0 : n = 0
    · simp [natGo, h0] at hc
    · rw [show natGo (f + 1) n [] = natGo f (n / 10) [digitChar (n % 10)] from by
        simp [natGo, h0]] at hc
      rw [natGo_append] at hc
      rcases List.mem_append.mp hc with h1 | h1
      · exact ih (n / 10) (by omega) c h1
      · rcases List.mem_singleton.mp h1 with rfl
        exact isPyDigit_digitChar _ (Nat.mod_lt _ (by omega))

theorem natGo_val (f : Nat) : ∀ n, n < f → n ≠ 0 →
    natGo f n [] ≠ [] ∧ digitsVal (natGo f n []) = n := by
  induction f with
  | zero => intro n hn; omega
  | succ f ih =>
    intro n hn h0
    rw [show natGo (f + 1) n [] = natGo f (n / 10) [digitChar (n % 10)] from by
      simp [natGo, h0]]
    rw [natGo_append]
    constructor
    · simp
    · rw [digitsVal_append]
      by_cases hq : n / 10 = 0
      · rw [show natGo f (n / 10) [] = [] from by
          cases f with
          | zero => rfl
          | succ f => simp [natGo, hq]]
        have hlt : n < 10 := by omega
        have hmod : n % 10 = n := Nat.mod_eq_of_lt hlt
        simp [digitsVal, hmod, charVal_digitChar n hlt]
      · obtain ⟨hne, hval⟩ := ih (n / 10) (by omega) hq
        rw [hval]
        have : digitsVal [digitChar (n % 10)] = n % 10 := by
          simp [digitsVal, charVal_digitChar (n % 10) (Nat.mod_lt _ (by omega))]
        rw [this]
        simp only [List.length_singleton, pow_one]
        omega

theorem natRepr_ne_nil (n : Nat) : natRepr n ≠ [] := by
  by_cases h : n = 0
  · simp [natRepr, h]
  · simp only [natRepr, if_neg h]
    exact (natGo_val (n + 1) n (by omega) h).1

theorem natRepr_digits (n : Nat) : ∀ c ∈ natRepr n, isPyDigit c = true := by
  by_cases h : n = 0
  · intro c hc; simp [natRepr, h] at hc; subst hc; decide
  · simp only [natRepr, if_neg h]
    exact natGo_digits (n + 1) n (by omega)

theorem digitsVal_natRepr (n : Nat) : digitsVal (natRepr n) = n := by
  by_cases h : n = 0
  · simp [natRepr, h, digitsVal, charVal]
  · simp only [natRepr, if_neg h]
    exact (natGo_val (n + 1) n (by omega) h).2

theorem ws_not_digit {c : Char} (h : isPyWS c = true) : isPyDigit c = false := by
  simp only [isPyWS, Bool.or_eq_true, decide_eq_true_eq] at h
  rcases h with ((((h | h) | h) | h) | h) | h <;> subst h <;> decide

theorem digit_not_ws {c : Char} (h : isPyDigit c = true) : isPyWS c = false := by
  by_contra hc
  simp only [Bool.not_eq_false] at hc
  have := ws_not_digit hc
  rw [h] at this
  simp at this

theorem dropWhile_eq_self_of {p : Char → Bool} {l : List Char}
    (h : ∀ c ∈ l, p c = false) : l.dropWhile p = l := by
  cases l with
  | nil => rfl
  | cons a t =>
    rw [List.dropWhile_cons, h a (List.mem_cons_self a t)]
    simp

theorem stripWS_all_nonws (l : List Char) (h : ∀ c ∈ l, isPyWS c = false) :
    stripWS l = l := by
  unfold stripWS
  rw [dropWhile_eq_self_of h]
  rw [dropWhile_eq_self_of (fun c hc => h c (List.mem_reverse.mp hc))]
  exact List.reverse_reverse l

theorem parseDigits_digits (l : List Char) (h : l ≠ []) (hd : ∀ c ∈ l, isPyDigit c = true) :
    parseDigits l = some (digitsVal l) := by
  rw [parseDigits, if_pos]
  exact ⟨h, List.all_eq_true.mpr (fun c hc => hd c hc)⟩

theorem pyInt_of_digits (l : List Char) (h : l ≠ []) (hd : ∀ c ∈ l, isPyDigit c = true) :
    pyInt l = some ((digitsVal l : Int)) := by
  obtain ⟨d, t, rfl⟩ : ∃ d t, l = d :: t := by
    cases l with
    | nil => exact absurd rfl h
    | cons d t => exact ⟨d, t, rfl⟩
  have hdd := hd d (List.mem_cons_self _ _)
  have hminus : d ≠ '-' := by rintro rfl; simp [isPyDigit] at hdd
  have hplus : d ≠ '+' := by rintro rfl; simp [isPyDigit] at hdd
  rw [pyInt, stripWS_all_nonws _ (fun c hc => digit_not_ws (hd c hc))]
  simp only [if_neg hminus, if_neg hplus]
  rw [parseDigits_digits _ h hd]
  rfl

theorem pyInt_natRepr (n : Nat) : pyInt (natRepr n) = some (n : Int) := by
  rw [pyInt_of_digits (natRepr n) (natRepr_ne_nil n) (natRepr_digits n), digitsVal_natRepr]

theorem intRepr_chars (p : Int) : ∀ c ∈ intRepr p, isPyDigit c = true ∨ c = '-' := by
  intro c hc
  by_cases h : p < 0
  · simp only [intRepr, if_pos h] at hc
    rcases List.mem_cons.mp hc with h1 | h1
    · right; exact h1
    · left; exact natRepr_digits _ c h1
  · simp only [intRepr, if_neg h] at hc
    left; exact natRepr_digits _ c hc

theorem pyInt_intRepr (p : Int) : pyInt (intRepr p) = some p := by
  by_cases h : p < 0
  · rw [show intRepr p = '-' :: natRepr p.natAbs from by simp [intRepr, h]]
    have hnws : ∀ c ∈ '-' :: natRepr p.natAbs, isPyWS c = false := by
      intro c hc
      rcases List.mem_cons.mp hc with h1 | h1
      · subst h1; decide
      · exact digit_not_ws (natRepr_digits _ c h1)
    have hstrip := stripWS_all_nonws _ hnws
    rw [pyInt, hstrip]
    show (parseDigits (natRepr p.natAbs)).map (fun n => -(n : Int)) = some p
    rw [parseDigits_digits _ (natRepr_ne_nil _) (natRepr_digits _), digitsVal_natRepr]
    show some (-(p.natAbs : Int)) = some p
    congr 1
    omega
  · rw [show intRepr p = natRepr p.natAbs from by simp [intRepr, h]]
    rw [pyInt_natRepr]
    congr 1
    omega

theorem pyInt_digits_crlf (ds : List Char) (h : ds ≠ []) (hd : ∀ c ∈ ds, isPyDigit c = true) :
    pyInt (ds ++ [crC, lfC]) = some ((digitsVal ds : Int)) := by
  have hstrip : stripWS (ds ++ [crC, lfC]) = ds := by
    unfold stripWS
    obtain ⟨d, t, rfl⟩ : ∃ d t, ds = d :: t := by
      cases ds with
      | nil => exact absurd rfl h
      | cons d t => exact ⟨d, t, rfl⟩
    rw [show (d :: t) ++ [crC, lfC] = d :: (t ++ [crC, lfC]) from rfl]
    rw [List.dropWhile_cons, digit_not_ws (hd d (List.mem_cons_self _ _))]
    simp only [Bool.false_eq_true, if_false]
    rw [show (d :: (t ++ [crC, lfC])).reverse = lfC :: crC :: (d :: t).reverse from by simp]
    rw [List.dropWhile_cons, show isPyWS lfC = true from by decide]
    simp only [if_true]
    rw [List.dropWhile_cons, show isPyWS crC = true from by decide]
    simp only [if_true]
    rw [dropWhile_eq_self_of (fun c hc => digit_not_ws (hd c (List.mem_reverse.mp hc)))]
    exact List.reverse_reverse _
  obtain ⟨d, t, rfl⟩ : ∃ d t, ds = d :: t := by
    cases ds with
    | nil => exact absurd rfl h
    | cons d t => exact ⟨d, t, rfl⟩
  have hdd := hd d (List.mem_cons_self _ _)
  have hminus : d ≠ '-' := by rintro rfl; simp [isPyDigit] at hdd
  have hplus : d ≠ '+' := by rintro rfl; simp [isPyDigit] at hdd
  rw [pyInt, hstrip]
  simp only [if_neg hminus, if_neg hplus]
  rw [parseDigits_digits _ h hd]
  rfl

/-! ### Substring search lemmas -/

theorem startsL_append (pat rest : List Char) : startsL pat (pat ++ rest) = true := by
  induction pat with
  | nil => rfl
  | cons a t ih => simp [startsL, ih]

theorem startsL_subset {pat s : List Char} (h : startsL pat s = true) :
    ∀ c ∈ pat, c ∈ s := by
  induction pat generalizing s with
  | nil => intro c hc; simp at hc
  | cons a t ih =>
    cases s with
    | nil => simp [startsL] at h
    | cons b s' =>
      simp only [startsL] at h
      by_cases hab : a = b
      · rw [if_pos hab] at h
        intro c hc
        rcases List.mem_cons.mp hc with h1 | h1
        · subst h1; rw [hab]; exact List.mem_cons_self _ _
        · exact List.mem_cons_of_mem _ (ih h c h1)
      · rw [if_neg hab] at h; simp at h

theorem startsL_ne_nil {pat s : List Char} (hp : pat ≠ []) (h : startsL pat s = true) :
    s ≠ [] := by
  cases pat with
  | nil => exact absurd rfl hp
  | cons a t =>
    cases s with
    | nil => simp [startsL] at h
    | cons b s' => simp

theorem filter_range_getLast (p : Nat → Bool) (N i0 : Nat) (hN : i0 < N) (hp : p i0 = true)
    (hlater : ∀ j, i0 < j → p j = false) :
    ((List.range N).filter p).getLast? = some i0 := by
  obtain ⟨m, rfl⟩ : ∃ m, N = i0 + 1 + m := ⟨N - (i0 + 1), by omega⟩
  clear hN
  induction m with
  | zero =>
    rw [show i0 + 1 + 0 = i0 + 1 from rfl, List.range_succ, List.filter_append]
    rw [show List.filter p [i0] = [i0] from by simp [hp]]
    exact List.getLast?_concat _
  | succ m ih =>
    rw [show i0 + 1 + (m + 1) = (i0 + 1 + m) + 1 from rfl, List.range_succ, List.filter_append]
    rw [show List.filter p [i0 + 1 + m] = [] from by
      simp [hlater (i0 + 1 + m) (by omega)]]
    rw [List.append_nil]
    exact ih

theorem rfindSub_spec (pat s : List Char) (i0 : Nat) (hpat : pat ≠ [])
    (hp : occursAt pat s i0 = true)
    (hlater : ∀ j, i0 < j → occursAt pat s j = false) :
    rfindSub pat s = some i0 := by
  have hle : i0 < s.length + 1 := by
    have hne := startsL_ne_nil hpat hp
    have : ¬ s.length ≤ i0 := by
      intro hcon
      exact hne (List.drop_eq_nil_iff.mpr hcon)
    omega
  exact filter_range_getLast (occursAt pat s) (s.length + 1) i0 hle hp hlater

/-! ### Topology registry: node state and the interface/link operations

Translated from class `Node` of mininet/node.py: `intfs` (port to interface
name), `ports` (interface name to port), `connection` (interface name to the
peer node and peer interface name).  Peer node objects are represented by
numeric node identifiers resolved in a `World` association list.  The external
primitives `makeIntfPair`, `moveIntf`, `quietRun` only touch the host OS, not
the registry maps, so they have no counterpart in the state. -/

structure NodeState where
  name : List Char
  portBase : Int
  intfs : List (Int × List Char)
  ports : List (List Char × Int)
  connection : List (List Char × (Nat × List Char))
  deriving DecidableEq

/-- `Node.newPort`: one past the maximum allocated port, or the port base. -/
def newPort (s : NodeState) : Int :=
  match s.ports with
  | [] => s.portBase
  | e :: t => (t.map Prod.snd).foldl max e.2 + 1

/-- The literal "-eth" used by `Node.intfName` and `Node.intfToPort`. -/
def ethPat : List Char := str "-eth"

theorem ethPat_eq : ethPat = ['-', 'e', 't', 'h'] := rfl

/-- `Node.intfName`: canonical interface name `name-ethN`. -/
def mkIntfName (nm : List Char) (p : Int) : List Char := nm ++ (ethPat ++ intRepr p)

/-- `Node.intfToPort`: parse the port number back out of an interface name.
`none` models a raised `ValueError` from `int()`; `some none` models the
method returning `None` when "-eth" does not occur. -/
def intfToPortR (intf : List Char) : Option (Option Int) :=
  match rfindSub ethPat intf with
  | none => some none
  | some i =>
    match pyInt (intf.drop (i + 4)) with
    | none => none
    | some v => some (some v)

/-- `Node.addIntf`: register name/port (resolving an omitted port through
`newPort`); always succeeds, overwriting any existing binding. -/
def addIntfS (s : NodeState) (intf : List Char) (port : Option Int) : NodeState :=
  let p := port.getD (newPort s)
  { s with intfs := ainsert s.intfs p intf, ports := ainsert s.ports intf p }

/-- `Node.registerIntf`: record the connection of `intf` to the peer. -/
def registerIntfS (s : NodeState) (intf : List Char) (peer : Nat)
    (peerIntf : List Char) : NodeState :=
  { s with connection := ainsert s.connection intf (peer, peerIntf) }

/-- `Node.deleteIntf`: delete the connection entry, the `intfs` entry for the
port parsed from the name (when the parse yields a port), and the `ports`
entry.  `none` models a raised `KeyError`/`ValueError`. -/
def deleteIntfN (s : NodeState) (intf : List Char) : Option NodeState :=
  if (alookup s.connection intf).isSome then
    match intfToPortR intf with
    | none => none
    | some (some p) =>
      if (alookup s.intfs p).isSome then
        if (alookup s.ports intf).isSome then
          some { s with connection := aerase s.connection intf,
                        intfs := aerase s.intfs p,
                        ports := aerase s.ports intf }
        else none
      else none
    | some none =>
      if (alookup s.ports intf).isSome then
        some { s with connection := aerase s.connection intf,
                      ports := aerase s.ports intf }
      else none
  else none

/-- The interfaces `Node.deleteIntfsToNode` collects from the connection map
(`dstIntf = none` models the `dstPort`-omitted branch). -/
def delListTo (s : NodeState) (dstId : Nat) (dstIntf : Option (List Char)) :
    List (List Char) :=
  s.connection.filterMap fun e =>
    match dstIntf with
    | some di => if e.2.2 = di then some e.1 else none
    | none => if e.2.1 = dstId then some e.1 else none

/-- `Node.deleteIntfsToNode`: delete every interface connected to `dstId`
(or, when a non-zero `dstPort` is given — Python truthiness — every interface
whose peer interface is the canonical name for that port on the peer). -/
def deleteIntfsToNodeS (s : NodeState) (dstId : Nat) (dstName : List Char)
    (dstPort : Option Int) : Option NodeState :=
  let dstIntf : Option (List Char) :=
    match dstPort with
    | some p => if p = 0 then none else some (mkIntfName dstName p)
    | none => none
  (delListTo s dstId dstIntf).foldlM deleteIntfN s

/-- A world of nodes addressed by identifier (Python object references). -/
abbrev World := List (Nat × NodeState)

/-- Update node `n` through `f`; fails when `f` fails. -/
def updW (w : World) (n : Nat) (f : NodeState → Option NodeState) : Option World :=
  match alookup w n with
  | none => none
  | some s => (f s).map (fun s' => ainsert w n s')

/-- `Node.linkTo`: allocate both ports and names before any mutation, then
add both interfaces and record the reciprocal connection entries (the
`makeIntfPair` host primitive is external). -/
def stepLink (w : World) (n1 n2 : Nat) (p1 p2 : Option Int) : Option World :=
  match alookup w n1, alookup w n2 with
  | some s1, some s2 =>
    let port1 := p1.getD (newPort s1)
    let port2 := p2.getD (newPort s2)
    let intf1 := mkIntfName s1.name port1
    let intf2 := mkIntfName s2.name port2
    (updW w n1 (fun s => some (addIntfS s intf1 (some port1)))).bind fun wa =>
    (updW wa n2 (fun s => some (addIntfS s intf2 (some port2)))).bind fun wb =>
    (updW wb n1 (fun s => some (registerIntfS s intf1 n2 intf2))).bind fun wc =>
    updW wc n2 (fun s => some (registerIntfS s intf2 n1 intf1))
  | _, _ => none

/-- One iteration of the `unlinkFrom` loop:
`self.deleteIntfsToNode(node); node.deleteIntfsToNode(self)`. -/
def stepUnlinkOne (n1 : Nat) (w : World) (nid : Nat) : Option World :=
  match alookup w nid with
  | none => none
  | some sDst =>
    (updW w n1 (fun s => deleteIntfsToNodeS s nid sDst.name none)).bind fun w1 =>
    match alookup w1 n1 with
    | none => none
    | some sSelf => updW w1 nid (fun s => deleteIntfsToNodeS s n1 sSelf.name none)

/-- `Node.unlinkFrom`: with a peer, unlink just from it; otherwise from every
node referenced in the connection map (computed before the loop). -/
def stepUnlink (w : World) (n1 : Nat) (peer : Option Nat) : Option World :=
  match alookup w n1 with
  | none => none
  | some s1 =>
    let lst : List Nat := match peer with
      | some p => [p]
      | none => s1.connection.map (fun e : List Char × (Nat × List Char) => e.2.1)
    lst.foldlM (stepUnlinkOne n1) w

/-- The mutating registry calls of the claims. -/
inductive TopOp where
  | addIntf (n : Nat) (intf : List Char) (port : Option Int)
  | linkTo (n1 n2 : Nat) (p1 p2 : Option Int)
  | unlinkFrom (n : Nat) (peer : Option Nat)
  | deleteIntf (n : Nat) (intf : List Char)

def step (w : World) : TopOp → Option World
  | .addIntf n intf port => updW w n (fun s => some (addIntfS s intf port))
  | .linkTo n1 n2 p1 p2 => stepLink w n1 n2 p1 p2
  | .unlinkFrom n peer => stepUnlink w n peer
  | .deleteIntf n intf => updW w n (fun s => deleteIntfN s intf)

def runOps (w : World) (ops : List TopOp) : Option World := ops.foldlM step w

/-- Freshness of an interface registration: the resolved port is not yet in
`intfs` and the name is not yet in `ports`. -/
def freshAdd (s : NodeState) (intf : List Char) (port : Option Int) : Bool :=
  let p := port.getD (newPort s)
  !(alookup s.intfs p).isSome && !(alookup s.ports intf).isSome

/-- Guard restricting `addIntf`/`linkTo` to fresh registrations (the
correction the duplicate-overwrite counterexample forces on the claims). -/
def freshOk (w : World) : TopOp → Bool
  | .addIntf n intf port =>
    match alookup w n with
    | some s => freshAdd s intf port
    | none => true
  | .linkTo n1 n2 p1 p2 =>
    match alookup w n1, alookup w n2 with
    | some s1, some s2 =>
      let port1 := p1.getD (newPort s1)
      let port2 := p2.getD (newPort s2)
      let intf1 := mkIntfName s1.name port1
      let intf2 := mkIntfName s2.name port2
      freshAdd s1 intf1 (some port1) &&
        (let sMid := if n1 = n2 then addIntfS s1 intf1 (some port1) else s2
         freshAdd sMid intf2 (some port2))
    | _, _ => true
  | _ => true

def stepSafe (w : World) (op : TopOp) : Option World :=
  if freshOk w op then step w op else none

def runSafe (w : World) (ops : List TopOp) : Option World := ops.foldlM stepSafe w

/-- Decidable statement of the claimed invariant for one node: `ports` is the
exact inverse of `intfs` and every connection key is a registered port. -/
def nodeInvB (s : NodeState) : Bool :=
  s.intfs.all (fun e => alookup s.ports e.2 == some e.1) &&
  s.ports.all (fun e => alookup s.intfs e.2 == some e.1) &&
  s.connection.all (fun e => (alookup s.ports e.1).isSome)

def worldInvB (w : World) : Bool := w.all (fun e => nodeInvB e.2)

/-- The inductive strengthening of the invariant used in the trace proof. -/
structure GoodN (s : NodeState) : Prop where
  ndI : (akeys s.intfs).Nodup
  ndP : (akeys s.ports).Nodup
  ndC : (akeys s.connection).Nodup
  inv1 : ∀ p i, alookup s.intfs p = some i → alookup s.ports i = some p
  inv2 : ∀ i p, alookup s.ports i = some p → alookup s.intfs p = some i
  conn : ∀ i c, alookup s.connection i = some c →
    ∃ p, alookup s.ports i = some p ∧ i = mkIntfName s.name p

def GoodW (w : World) : Prop := ∀ e ∈ w, GoodN e.2

/-- A world of freshly created nodes: empty maps, given names and port bases
(0 for plain nodes, 1 for switches). -/
def initWorld (ns : List (List Char × Int)) : World :=
  (List.range ns.length).zip (ns.map fun nb => ⟨nb.1, nb.2, [], [], []⟩)

/-- Parsing a canonical interface name recovers exactly its port: the last
occurrence of "-eth" in `name-ethN` is the appended one, and `int()` accepts
the decimal tail. -/
theorem intfToPortR_canonical (nm : List Char) (p : Int) :
    intfToPortR (mkIntfName nm p) = some (some p) := by
  have hocc : occursAt ethPat (mkIntfName nm p) nm.length = true := by
    unfold occursAt mkIntfName
    rw [List.drop_left]
    exact startsL_append _ _
  have hlater : ∀ j, nm.length < j → occursAt ethPat (mkIntfName nm p) j = false := by
    intro j hj
    obtain ⟨k, rfl⟩ : ∃ k, j = nm.length + (k + 1) := ⟨j - nm.length - 1, by omega⟩
    unfold occursAt mkIntfName
    rw [List.drop_append]
    rcases k with _ | (_ | (_ | k))
    · rw [ethPat_eq]; simp [startsL]
    · rw [ethPat_eq]; simp [startsL]
    · rw [ethPat_eq]; simp [startsL]
    · rw [show k + 3 + 1 = ethPat.length + k from by rw [ethPat_eq]; simp; omega,
        List.drop_append]
      by_contra hcon
      simp only [Bool.not_eq_false] at hcon
      have he : 'e' ∈ (intRepr p).drop k :=
        startsL_subset hcon 'e' (by rw [ethPat_eq]; simp)
      have he2 : 'e' ∈ intRepr p := List.mem_of_mem_drop he
      rcases intRepr_chars p 'e' he2 with h1 | h1
      · simp [isPyDigit] at h1
      · simp at h1
  have hrf : rfindSub ethPat (mkIntfName nm p) = some nm.length :=
    rfindSub_spec _ _ _ (by rw [ethPat_eq]; simp) hocc hlater
  rw [intfToPortR, hrf]
  have hdrop : (mkIntfName nm p).drop (nm.length + 4) = intRepr p := by
    unfold mkIntfName
    rw [List.drop_append]
    rw [show (4 : Nat) = ethPat.length from by rw [ethPat_eq]; rfl, List.drop_left]
  simp only [hdrop, pyInt_intRepr]

/-! ### Preservation of the registry invariant -/

theorem addIntfS_intfs (s : NodeState) (intf : List Char) (p : Int) :
    (addIntfS s intf (some p)).intfs = ainsert s.intfs p intf := rfl

theorem addIntfS_ports (s : NodeState) (intf : List Char) (p : Int) :
    (addIntfS s intf (some p)).ports = ainsert s.ports intf p := rfl

theorem addIntfS_conn (s : NodeState) (intf : List Char) (p : Int) :
    (addIntfS s intf (some p)).connection = s.connection := rfl

theorem addIntfS_name (s : NodeState) (intf : List Char) (p : Int) :
    (addIntfS s intf (some p)).name = s.name := rfl

theorem freshAdd_none {s : NodeState} {intf : List Char} {p : Int}
    (h : freshAdd s intf (some p) = true) :
    alookup s.intfs p = none ∧ alookup s.ports intf = none := by
  rw [show freshAdd s intf (some p)
      = (!(alookup s.intfs p).isSome && !(alookup s.ports intf).isSome) from rfl,
    Bool.and_eq_true] at h
  constructor
  · rcases hx : alookup s.intfs p with _ | v
    · rfl
    · rw [hx] at h; simp at h
  · rcases hx : alookup s.ports intf with _ | v
    · rfl
    · rw [hx] at h; simp at h

theorem goodN_nodeInvB {s : NodeState} (h : GoodN s) : nodeInvB s = true := by
  unfold nodeInvB
  rw [Bool.and_eq_true, Bool.and_eq_true]
  refine ⟨⟨?_, ?_⟩, ?_⟩
  · apply List.all_eq_true.mpr
    intro e he
    have h1 : alookup s.intfs e.1 = some e.2 := alookup_of_mem_nodup h.ndI (by simpa using he)
    have h2 := h.inv1 e.1 e.2 h1
    simpa using h2
  · apply List.all_eq_true.mpr
    intro e he
    have h1 : alookup s.ports e.1 = some e.2 := alookup_of_mem_nodup h.ndP (by simpa using he)
    have h2 := h.inv2 e.1 e.2 h1
    simpa using h2
  · apply List.all_eq_true.mpr
    intro e he
    have h1 : alookup s.connection e.1 = some e.2 :=
      alookup_of_mem_nodup h.ndC (by simpa using he)
    obtain ⟨p, hp, _⟩ := h.conn e.1 e.2 h1
    simp [hp]

theorem goodN_addIntf {s : NodeState} {intf : List Char} {p : Int}
    (h : GoodN s) (hf : freshAdd s intf (some p) = true) :
    GoodN (addIntfS s intf (some p)) := by
  obtain ⟨hfi, hfp⟩ := freshAdd_none hf
  constructor
  · rw [addIntfS_intfs]; exact akeys_ainsert_nodup _ _ _ h.ndI
  · rw [addIntfS_ports]; exact akeys_ainsert_nodup _ _ _ h.ndP
  · exact h.ndC
  · intro q j hq
    rw [addIntfS_intfs] at hq
    rw [addIntfS_ports]
    by_cases hqp : q = p
    · subst hqp
      rw [alookup_ainsert_self] at hq
      have := Option.some.inj hq
      subst this
      exact alookup_ainsert_self _ _ _
    · rw [alookup_ainsert_ne _ _ hqp] at hq
      have hji : j ≠ intf := by
        intro hj
        subst hj
        rw [h.inv1 q j hq] at hfp
        cases hfp
      rw [alookup_ainsert_ne _ _ hji]
      exact h.inv1 q j hq
  · intro i q hq
    rw [addIntfS_ports] at hq
    rw [addIntfS_intfs]
    by_cases hii : i = intf
    · subst hii
      rw [alookup_ainsert_self] at hq
      have := Option.some.inj hq
      subst this
      exact alookup_ainsert_self _ _ _
    · rw [alookup_ainsert_ne _ _ hii] at hq
      have hqp : q ≠ p := by
        intro hj
        subst hj
        rw [h.inv2 i q hq] at hfi
        cases hfi
      rw [alookup_ainsert_ne _ _ hqp]
      exact h.inv2 i q hq
  · intro i c hc
    rw [addIntfS_conn] at hc
    obtain ⟨q, hq, hcan⟩ := h.conn i c hc
    have hii : i ≠ intf := by
      intro hh
      subst hh
      rw [hfp] at hq
      cases hq
    refine ⟨q, ?_, hcan⟩
    rw [addIntfS_ports, alookup_ainsert_ne _ _ hii]
    exact hq

theorem goodN_register {s : NodeState} {intf : List Char} {peer : Nat}
    {peerIntf : List Char} {p : Int}
    (h : GoodN s) (hp : alookup s.ports intf = some p)
    (hcan : intf = mkIntfName s.name p)
    (hnc : alookup s.connection intf = none) :
    GoodN (registerIntfS s intf peer peerIntf) := by
  constructor
  · exact h.ndI
  · exact h.ndP
  · exact akeys_ainsert_nodup _ _ _ h.ndC
  · exact h.inv1
  · exact h.inv2
  · intro i c hc
    by_cases hi : i = intf
    · subst hi
      exact ⟨p, hp, hcan⟩
    · have hc' : alookup s.connection i = some c := by
        rw [show (registerIntfS s intf peer peerIntf).connection
          = ainsert s.connection intf (peer, peerIntf) from rfl] at hc
        rw [alookup_ainsert_ne _ _ hi] at hc
        exact hc
      exact h.conn i c hc'

theorem goodN_delete {s : NodeState} {intf : List Char} {s' : NodeState}
    (h : GoodN s) (hd : deleteIntfN s intf = some s') : GoodN s' := by
  unfold deleteIntfN at hd
  split at hd
  case isFalse => cases hd
  case isTrue hc =>
  obtain ⟨c, hcv⟩ := Option.isSome_iff_exists.mp hc
  obtain ⟨p, hp, hcan⟩ := h.conn intf c hcv
  have hparse : intfToPortR intf = some (some p) := by
    rw [hcan]; exact intfToPortR_canonical _ _
  have hip : alookup s.intfs p = some intf := h.inv2 intf p hp
  split at hd
  · next heq => rw [hparse] at heq; cases heq
  · next p' heq =>
    rw [hparse] at heq
    have hpp : p = p' := Option.some.inj (Option.some.inj heq)
    subst hpp
    rw [if_pos (by rw [hip]; rfl)] at hd
    rw [if_pos (by rw [hp]; rfl)] at hd
    have := Option.some.inj hd
    subst this
    constructor
    · exact akeys_nodup_aerase _ _ h.ndI
    · exact akeys_nodup_aerase _ _ h.ndP
    · exact akeys_nodup_aerase _ _ h.ndC
    · intro q j hq
      have hqp : q ≠ p := by
        intro hh
        subst hh
        rw [alookup_aerase_self _ _ h.ndI] at hq
        cases hq
      rw [alookup_aerase_ne _ hqp] at hq
      have h2 := h.inv1 q j hq
      have hji : j ≠ intf := by
        intro hh
        subst hh
        rw [hp] at h2
        have := Option.some.inj h2
        exact hqp this.symm
      rw [alookup_aerase_ne _ hji]
      exact h2
    · intro i q hq
      have hii : i ≠ intf := by
        intro hh
        subst hh
        rw [alookup_aerase_self _ _ h.ndP] at hq
        cases hq
      rw [alookup_aerase_ne _ hii] at hq
      have h2 := h.inv2 i q hq
      have hqp : q ≠ p := by
        intro hh
        subst hh
        rw [hip] at h2
        have := Option.some.inj h2
        exact hii this.symm
      rw [alookup_aerase_ne _ hqp]
      exact h2
    · intro i c' hc'
      have hii : i ≠ intf := by
        intro hh
        subst hh
        rw [alookup_aerase_self _ _ h.ndC] at hc'
        cases hc'
      rw [alookup_aerase_ne _ hii] at hc'
      obtain ⟨q, hq, hcan'⟩ := h.conn i c' hc'
      refine ⟨q, ?_, hcan'⟩
      rw [alookup_aerase_ne _ hii]
      exact hq
  · next heq =>
    rw [hparse] at heq
    cases Option.some.inj heq

theorem goodN_fold {lst : List (List Char)} {s s' : NodeState}
    (h : GoodN s) (hf : lst.foldlM deleteIntfN s = some s') : GoodN s' := by
  induction lst generalizing s with
  | nil =>
    rw [List.foldlM_nil] at hf
    have := Option.some.inj hf
    subst this
    exact h
  | cons a t ih =>
    rw [List.foldlM_cons] at hf
    rcases hx : deleteIntfN s a with _ | s1
    · rw [hx] at hf
      simp only [Option.bind_eq_bind, Option.none_bind] at hf
      cases hf
    · rw [hx] at hf
      simp only [Option.bind_eq_bind, Option.some_bind] at hf
      exact ih (goodN_delete h hx) hf

theorem goodN_delToNode {s : NodeState} {dstId : Nat} {dstName : List Char}
    {dstPort : Option Int} {s' : NodeState}
    (h : GoodN s) (hf : deleteIntfsToNodeS s dstId dstName dstPort = some s') :
    GoodN s' := by
  unfold deleteIntfsToNodeS at hf
  exact goodN_fold h hf

theorem mem_ainsert {α β : Type} [DecidableEq α] {l : List (α × β)} {k : α} {v : β}
    {e : α × β} (h : e ∈ ainsert l k v) : e ∈ l ∨ e = (k, v) := by
  induction l with
  | nil =>
    rw [show ainsert ([] : List (α × β)) k v = [(k, v)] from rfl] at h
    right
    exact List.mem_singleton.mp h
  | cons hd t ih =>
    obtain ⟨a, b⟩ := hd
    by_cases ha : a = k
    · subst ha
      rw [show ainsert ((a, b) :: t) a v = (a, v) :: t from by simp [ainsert]] at h
      rcases List.mem_cons.mp h with h1 | h1
      · right; exact h1
      · left; exact List.mem_cons_of_mem _ h1
    · rw [show ainsert ((a, b) :: t) k v = (a, b) :: ainsert t k v from by
        simp [ainsert, ha]] at h
      rcases List.mem_cons.mp h with h1 | h1
      · left; exact h1 ▸ List.mem_cons_self _ _
      · rcases ih h1 with h2 | h2
        · left; exact List.mem_cons_of_mem _ h2
        · right; exact h2

theorem goodW_lookup {w : World} {n : Nat} {s : NodeState} (hw : GoodW w)
    (h : alookup w n = some s) : GoodN s := hw _ (mem_of_alookup h)

theorem goodW_updW {w : World} {n : Nat} {f : NodeState → Option NodeState} {w' : World}
    (hw : GoodW w)
    (hf : ∀ s s', alookup w n = some s → f s = some s' → GoodN s')
    (h : updW w n f = some w') : GoodW w' := by
  unfold updW at h
  split at h
  · cases h
  · next s hx =>
    rcases hy : f s with _ | s'
    · rw [hy, Option.map_none'] at h; cases h
    · rw [hy, Option.map_some'] at h
      have heq : ainsert w n s' = w' := Option.some.inj h
      subst heq
      intro e he
      rcases mem_ainsert he with h1 | h1
      · exact hw e h1
      · rw [h1]
        exact hf s s' hx hy

theorem goodW_unlinkOne {n1 : Nat} {w : World} {nid : Nat} {w' : World}
    (hw : GoodW w) (h : stepUnlinkOne n1 w nid = some w') : GoodW w' := by
  unfold stepUnlinkOne at h
  split at h
  · cases h
  · next sDst hx =>
    rcases hy : updW w n1 (fun s => deleteIntfsToNodeS s nid sDst.name none) with _ | w1
    · rw [hy] at h
      simp only [Option.bind_eq_bind, Option.none_bind] at h
      cases h
    · rw [hy] at h
      simp only [Option.bind_eq_bind, Option.some_bind] at h
      have hw1 : GoodW w1 :=
        goodW_updW hw (fun s s' hl hf => goodN_delToNode (goodW_lookup hw hl) hf) hy
      split at h
      · cases h
      · next sSelf hz =>
        exact goodW_updW hw1 (fun s s' hl hf => goodN_delToNode (goodW_lookup hw1 hl) hf) h

theorem freshOk_link {w : World} {n1 n2 : Nat} {p1 p2 : Option Int} {s1 s2 : NodeState}
    (h1 : alookup w n1 = some s1) (h2 : alookup w n2 = some s2)
    (hok : freshOk w (.linkTo n1 n2 p1 p2) = true) :
    freshAdd s1 (mkIntfName s1.name (p1.getD (newPort s1)))
      (some (p1.getD (newPort s1))) = true ∧
    freshAdd (if n1 = n2 then
        addIntfS s1 (mkIntfName s1.name (p1.getD (newPort s1)))
          (some (p1.getD (newPort s1)))
      else s2)
      (mkIntfName s2.name (p2.getD (newPort s2)))
      (some (p2.getD (newPort s2))) = true := by
  simp only [freshOk] at hok
  split at hok
  · next s1' s2' h1' h2' =>
    rw [h1] at h1'
    rw [h2] at h2'
    cases Option.some.inj h1'
    cases Option.some.inj h2'
    simp only [Bool.and_eq_true] at hok
    exact hok
  · next hx =>
    exact (hx s1 s2 h1 h2).elim

theorem goodN_conn_none {s : NodeState} {intf : List Char} (g : GoodN s)
    (hfp : alookup s.ports intf = none) : alookup s.connection intf = none := by
  rcases hc : alookup s.connection intf with _ | c
  · rfl
  · obtain ⟨q, hq, _⟩ := g.conn _ c hc
    rw [hfp] at hq
    cases hq

theorem goodW_stepLink {w : World} {n1 n2 : Nat} {p1 p2 : Option Int} {w' : World}
    (hw : GoodW w) (hok : freshOk w (.linkTo n1 n2 p1 p2) = true)
    (hs : stepLink w n1 n2 p1 p2 = some w') : GoodW w' := by
  unfold stepLink at hs
  split at hs
  case h_2 => cases hs
  case h_1 s1 s2 h1 h2 =>
  obtain ⟨hok1, hok2⟩ := freshOk_link h1 h2 hok
  simp only [] at hs
  set port1 := p1.getD (newPort s1) with hport1
  set port2 := p2.getD (newPort s2) with hport2
  set intf1 := mkIntfName s1.name port1 with hintf1
  set intf2 := mkIntfName s2.name port2 with hintf2
  have g0 : GoodN s1 := goodW_lookup hw h1
  have hu1 : updW w n1 (fun s => some (addIntfS s intf1 (some port1)))
      = some (ainsert w n1 (addIntfS s1 intf1 (some port1))) := by
    unfold updW
    rw [h1]
    rfl
  rw [hu1] at hs
  simp only [Option.some_bind] at hs
  set t1 := addIntfS s1 intf1 (some port1) with ht1
  obtain ⟨hfi1, hfp1⟩ := freshAdd_none hok1
  have hcs1 : alookup s1.connection intf1 = none := goodN_conn_none g0 hfp1
  have g1 : GoodN t1 := goodN_addIntf g0 hok1
  by_cases hnn : n1 = n2
  · -- the self-link case: node2 is the same object as node1
    subst hnn
    rw [h1] at h2
    cases Option.some.inj h2
    rw [if_pos rfl] at hok2
    have hu2 : updW (ainsert w n1 t1) n1 (fun s => some (addIntfS s intf2 (some port2)))
        = some (ainsert (ainsert w n1 t1) n1 (addIntfS t1 intf2 (some port2))) := by
      unfold updW
      rw [alookup_ainsert_self]
      rfl
    rw [hu2] at hs
    simp only [Option.some_bind] at hs
    set t2 := addIntfS t1 intf2 (some port2) with ht2
    have hu3 : updW (ainsert (ainsert w n1 t1) n1 t2) n1
        (fun s => some (registerIntfS s intf1 n1 intf2))
        = some (ainsert (ainsert (ainsert w n1 t1) n1 t2) n1
            (registerIntfS t2 intf1 n1 intf2)) := by
      unfold updW
      rw [alookup_ainsert_self]
      rfl
    rw [hu3] at hs
    simp only [Option.some_bind] at hs
    set t3 := registerIntfS t2 intf1 n1 intf2 with ht3
    have hu4 : updW (ainsert (ainsert (ainsert w n1 t1) n1 t2) n1 t3) n1
        (fun s => some (registerIntfS s intf2 n1 intf1))
        = some (ainsert (ainsert (ainsert (ainsert w n1 t1) n1 t2) n1 t3) n1
            (registerIntfS t3 intf2 n1 intf1)) := by
      unfold updW
      rw [alookup_ainsert_self]
      rfl
    rw [hu4] at hs
    set t4 := registerIntfS t3 intf2 n1 intf1 with ht4
    have hww := Option.some.inj hs
    subst hww
    obtain ⟨hfi2, hfp2⟩ := freshAdd_none hok2
    have g2 : GoodN t2 := goodN_addIntf g1 hok2
    have hne21 : intf2 ≠ intf1 := by
      intro hh
      rw [hh, ht1, addIntfS_ports, alookup_ainsert_self] at hfp2
      cases hfp2
    have hs1p2 : alookup s1.ports intf2 = none := by
      have hx := hfp2
      rw [ht1, addIntfS_ports, alookup_ainsert_ne _ _ hne21] at hx
      exact hx
    have hcs2 : alookup s1.connection intf2 = none := goodN_conn_none g0 hs1p2
    have hp31 : alookup t2.ports intf1 = some port1 := by
      rw [ht2, addIntfS_ports, alookup_ainsert_ne _ _ (Ne.symm hne21), ht1,
        addIntfS_ports, alookup_ainsert_self]
    have g3 : GoodN t3 := by
      rw [ht3]
      apply goodN_register g2 hp31
      · exact hintf1
      · exact hcs1
    have hp42 : alookup t3.ports intf2 = some port2 := by
      show alookup t2.ports intf2 = some port2
      rw [ht2, addIntfS_ports, alookup_ainsert_self]
    have hc42 : alookup t3.connection intf2 = none := by
      show alookup (ainsert t2.connection intf1 (n1, intf2)) intf2 = none
      rw [alookup_ainsert_ne _ _ hne21]
      exact hcs2
    have g4 : GoodN t4 := by
      rw [ht4]
      apply goodN_register g3 hp42
      · exact hintf2
      · exact hc42
    intro e he
    rcases mem_ainsert he with h4 | h4
    · rcases mem_ainsert h4 with h3 | h3
      · rcases mem_ainsert h3 with h2' | h2'
        · rcases mem_ainsert h2' with hA | hA
          · exact hw e hA
          · rw [hA]; exact g1
        · rw [h2']; exact g2
      · rw [h3]; exact g3
    · rw [h4]; exact g4
  · -- the two nodes are distinct objects
    rw [if_neg hnn] at hok2
    have g0b : GoodN s2 := goodW_lookup hw h2
    obtain ⟨hfi2, hfp2⟩ := freshAdd_none hok2
    have hcs2 : alookup s2.connection intf2 = none := goodN_conn_none g0b hfp2
    have g2 : GoodN (addIntfS s2 intf2 (some port2)) := goodN_addIntf g0b hok2
    have hu2 : updW (ainsert w n1 t1) n2 (fun s => some (addIntfS s intf2 (some port2)))
        = some (ainsert (ainsert w n1 t1) n2 (addIntfS s2 intf2 (some port2))) := by
      unfold updW
      rw [alookup_ainsert_ne _ _ (Ne.symm hnn), h2]
      rfl
    rw [hu2] at hs
    simp only [Option.some_bind] at hs
    set t2 := addIntfS s2 intf2 (some port2) with ht2
    have hu3 : updW (ainsert (ainsert w n1 t1) n2 t2) n1
        (fun s => some (registerIntfS s intf1 n2 intf2))
        = some (ainsert (ainsert (ainsert w n1 t1) n2 t2) n1
            (registerIntfS t1 intf1 n2 intf2)) := by
      unfold updW
      rw [alookup_ainsert_ne _ _ hnn, alookup_ainsert_self]
      rfl
    rw [hu3] at hs
    simp only [Option.some_bind] at hs
    set r1 := registerIntfS t1 intf1 n2 intf2 with hr1
    have hu4 : updW (ainsert (ainsert (ainsert w n1 t1) n2 t2) n1 r1) n2
        (fun s => some (registerIntfS s intf2 n1 intf1))
        = some (ainsert (ainsert (ainsert (ainsert w n1 t1) n2 t2) n1 r1) n2
            (registerIntfS t2 intf2 n1 intf1)) := by
      unfold updW
      rw [alookup_ainsert_ne _ _ (Ne.symm hnn), alookup_ainsert_self]
      rfl
    rw [hu4] at hs
    set r2 := registerIntfS t2 intf2 n1 intf1 with hr2
    have hww := Option.some.inj hs
    subst hww
    have gr1 : GoodN r1 := by
      rw [hr1]
      apply goodN_register g1
      · rw [ht1, addIntfS_ports]
        exact alookup_ainsert_self _ _ _
      · exact hintf1
      · exact hcs1
    have gr2 : GoodN r2 := by
      rw [hr2]
      apply goodN_register g2
      · rw [ht2, addIntfS_ports]
        exact alookup_ainsert_self _ _ _
      · exact hintf2
      · exact hcs2
    intro e he
    rcases mem_ainsert he with h4 | h4
    · rcases mem_ainsert h4 with h3 | h3
      · rcases mem_ainsert h3 with h2' | h2'
        · rcases mem_ainsert h2' with hA | hA
          · exact hw e hA
          · rw [hA]; exact g1
        · rw [h2']; exact g2
      · rw [h3]; exact gr1
    · rw [h4]; exact gr2

theorem goodW_unlinkFold {n1 : Nat} {lst : List Nat} {w w' : World}
    (hw : GoodW w) (h : lst.foldlM (stepUnlinkOne n1) w = some w') : GoodW w' := by
  induction lst generalizing w with
  | nil =>
    rw [List.foldlM_nil] at h
    have := Option.some.inj h
    subst this
    exact hw
  | cons a t ih =>
    rw [List.foldlM_cons] at h
    rcases hx : stepUnlinkOne n1 w a with _ | w1
    · rw [hx] at h
      simp only [Option.bind_eq_bind, Option.none_bind] at h
      cases h
    · rw [hx] at h
      simp only [Option.bind_eq_bind, Option.some_bind] at h
      exact ih (goodW_unlinkOne hw hx) h

theorem goodW_step {w : World} {op : TopOp} {w' : World}
    (hw : GoodW w) (hok : freshOk w op = true) (hs : step w op = some w') : GoodW w' := by
  cases op with
  | addIntf n intf port =>
    simp only [step] at hs
    refine goodW_updW hw ?_ hs
    intro s s' hlook hfs
    have heq := Option.some.inj hfs
    subst heq
    simp only [freshOk] at hok
    split at hok
    · next s0 hlook0 =>
      rw [hlook] at hlook0
      cases Option.some.inj hlook0
      have hfr : freshAdd s intf (some (port.getD (newPort s))) = true := by
        have hrw : freshAdd s intf port = freshAdd s intf (some (port.getD (newPort s))) := by
          cases port <;> rfl
        rw [← hrw]
        exact hok
      have hrw2 : addIntfS s intf port = addIntfS s intf (some (port.getD (newPort s))) := by
        cases port <;> rfl
      rw [hrw2]
      exact goodN_addIntf (goodW_lookup hw hlook) hfr
    · next hnone =>
      rw [hlook] at hnone
      cases hnone
  | linkTo n1 n2 p1 p2 =>
    simp only [step] at hs
    exact goodW_stepLink hw hok hs
  | unlinkFrom n peer =>
    simp only [step] at hs
    unfold stepUnlink at hs
    split at hs
    · cases hs
    · next s1 hx =>
      exact goodW_unlinkFold hw hs
  | deleteIntf n intf =>
    simp only [step] at hs
    refine goodW_updW hw ?_ hs
    intro s s' hlook hfs
    exact goodN_delete (goodW_lookup hw hlook) hfs

theorem goodW_stepSafe {w : World} {op : TopOp} {w' : World}
    (hw : GoodW w) (hs : stepSafe w op = some w') : GoodW w' := by
  unfold stepSafe at hs
  split at hs
  · next hok => exact goodW_step hw hok hs
  · cases hs

theorem goodW_runSafe {w : World} {ops : List TopOp} {w' : World}
    (hw : GoodW w) (hs : runSafe w ops = some w') : GoodW w' := by
  induction ops generalizing w with
  | nil =>
    unfold runSafe at hs
    rw [List.foldlM_nil] at hs
    cases Option.some.inj hs
    exact hw
  | cons a t ih =>
    unfold runSafe at hs
    rw [List.foldlM_cons] at hs
    rcases hx : stepSafe w a with _ | w1
    · rw [hx] at hs
      simp only [Option.bind_eq_bind, Option.none_bind] at hs
      cases hs
    · rw [hx] at hs
      simp only [Option.bind_eq_bind, Option.some_bind] at hs
      exact ih (goodW_stepSafe hw hx) hs

theorem goodN_empty (nm : List Char) (pb : Int) : GoodN ⟨nm, pb, [], [], []⟩ := by
  constructor
  · simp [akeys]
  · simp [akeys]
  · simp [akeys]
  · intro p i h
    simp [alookup] at h
  · intro i p h
    simp [alookup] at h
  · intro i c h
    simp [alookup] at h

theorem goodW_initWorld (ns : List (List Char × Int)) : GoodW (initWorld ns) := by
  intro e he
  unfold initWorld at he
  obtain ⟨h1, h2⟩ := List.of_mem_zip he
  obtain ⟨nb, _, hnb⟩ := List.mem_map.mp h2
  rw [← hnb]
  exact goodN_empty _ _

theorem worldInvB_of_goodW {w : World} (hw : GoodW w) : worldInvB w = true := by
  unfold worldInvB
  apply List.all_eq_true.mpr
  intro e he
  exact goodN_nodeInvB (hw e he)

/-! ### Claim 1 -/

def cex1World : World := [(0, ⟨str "a", 0, [], [], []⟩)]

def cex1Ops : List TopOp :=
  [.addIntf 0 (str "b-eth0") (some 0), .addIntf 0 (str "c-eth0") (some 0)]

/-- C1, counterexample: on a node whose maps satisfy the invariant, the two
`addIntf` calls of `cex1Ops` both succeed (Python `addIntf` performs no
duplicate check), yet afterwards `ports` is not the inverse of `intfs`: the
second call overwrote `intfs[0]` while leaving "b-eth0" in `ports`.  This
refutes the claim that the invariant holds after every successful
`addIntf`/`link`/`unlink` call. -/
theorem claim1_counterexample :
    (runOps cex1World cex1Ops).map worldInvB = some false := by decide

/-- C1, amended: starting from freshly created nodes (empty maps), after any
sequence of `addIntf`/`linkTo`/`unlinkFrom`/`deleteIntf` calls that succeed
and in which every interface registration is fresh (the resolved port is not
already in `intfs` and the name not already in `ports` — the `stepSafe`
guard), every node's `ports` map is the exact inverse of its `intfs` map and
every connection key is a registered port. -/
theorem claim1_amended (ns : List (List Char × Int)) (ops : List TopOp) (w' : World)
    (h : runSafe (initWorld ns) ops = some w') : worldInvB w' = true :=
  worldInvB_of_goodW (goodW_runSafe (goodW_initWorld ns) h)

def c1wNs : List (List Char × Int) := [(str "h1", 0), (str "s1", 1)]

def c1wOps : List TopOp :=
  [.linkTo 0 1 none none, .addIntf 0 (str "h1-eth5") (some 5),
   .unlinkFrom 0 (some 1)]

/-- C1, witness: a concrete link/add/unlink trace on two fresh nodes on which
the amended invariant theorem applies. -/
theorem claim1_witness :
    worldInvB ((runSafe (initWorld c1wNs) c1wOps).getD []) = true :=
  claim1_amended c1wNs c1wOps _ (by decide)

/-! ### Claim 2 -/

theorem alookup_append_of_none {α β : Type} [DecidableEq α] {l : List (α × β)}
    (m : List (α × β)) {k : α} (h : alookup l k = none) :
    alookup (l ++ m) k = alookup m k := by
  induction l with
  | nil => rfl
  | cons hd t ih =>
    obtain ⟨a, b⟩ := hd
    by_cases ha : a = k
    · simp [alookup, ha] at h
    · simp only [alookup, if_neg ha] at h
      simp only [List.cons_append, alookup, if_neg ha]
      exact ih h

theorem delListTo_eq {conn : List (List Char × (Nat × List Char))} {dstId : Nat}
    {intf1 intf2 : List Char} (hc : ∀ e ∈ conn, e.2.1 ≠ dstId) (s : NodeState)
    (hs : s.connection = conn ++ [(intf1, (dstId, intf2))]) :
    delListTo s dstId none = [intf1] := by
  unfold delListTo
  rw [hs, List.filterMap_append]
  rw [show List.filterMap (fun e : List Char × (Nat × List Char) =>
      match (none : Option (List Char)) with
      | some di => if e.2.2 = di then some e.1 else none
      | none => if e.2.1 = dstId then some e.1 else none) conn = [] from ?_]
  · simp
  · rw [List.filterMap_eq_nil_iff]
    intro e he
    simp only []
    rw [if_neg (hc e he)]

/-- Deleting the canonical interface that `linkTo` just added restores the
node's three maps exactly, provided the registration was fresh. -/
theorem deleteIntfN_restore (s : NodeState) (port : Int) (peer : Nat)
    (peerIntf : List Char)
    (hfi : alookup s.intfs port = none)
    (hfp : alookup s.ports (mkIntfName s.name port) = none)
    (hfc : alookup s.connection (mkIntfName s.name port) = none) :
    deleteIntfN (registerIntfS (addIntfS s (mkIntfName s.name port) (some port))
      (mkIntfName s.name port) peer peerIntf) (mkIntfName s.name port) = some s := by
  set intf := mkIntfName s.name port with hintf
  unfold deleteIntfN
  have hconn : alookup (registerIntfS (addIntfS s intf (some port))
      intf peer peerIntf).connection intf = some (peer, peerIntf) := by
    show alookup (ainsert (addIntfS s intf (some port)).connection intf
      (peer, peerIntf)) intf = _
    exact alookup_ainsert_self _ _ _
  rw [if_pos (by rw [hconn]; rfl)]
  have hparse : intfToPortR intf = some (some port) := by
    rw [hintf]
    exact intfToPortR_canonical s.name port
  rw [hparse]
  have hip : alookup (registerIntfS (addIntfS s intf (some port))
      intf peer peerIntf).intfs port = some intf := by
    show alookup (ainsert s.intfs port intf) port = some intf
    exact alookup_ainsert_self _ _ _
  have hpp : alookup (registerIntfS (addIntfS s intf (some port))
      intf peer peerIntf).ports intf = some port := by
    show alookup (ainsert s.ports intf port) intf = some port
    exact alookup_ainsert_self _ _ _
  simp only [hip, hpp, Option.isSome_some, if_true]
  have e1 : aerase (registerIntfS (addIntfS s intf (some port))
      intf peer peerIntf).connection intf = s.connection := by
    show aerase (ainsert (addIntfS s intf (some port)).connection intf
      (peer, peerIntf)) intf = s.connection
    rw [show (addIntfS s intf (some port)).connection = s.connection from rfl]
    rw [ainsert_fresh _ _ _ hfc, aerase_append_fresh _ _ _ hfc]
  have e2 : aerase (registerIntfS (addIntfS s intf (some port))
      intf peer peerIntf).intfs port = s.intfs := by
    show aerase (ainsert s.intfs port intf) port = s.intfs
    rw [ainsert_fresh _ _ _ hfi, aerase_append_fresh _ _ _ hfi]
  have e3 : aerase (registerIntfS (addIntfS s intf (some port))
      intf peer peerIntf).ports intf = s.ports := by
    show aerase (ainsert s.ports intf port) intf = s.ports
    rw [ainsert_fresh _ _ _ hfp, aerase_append_fresh _ _ _ hfp]
  rw [e1, e2, e3]
  rfl

/-- The world produced by a successful `linkTo` between two distinct nodes. -/
def linkResult (w : World) (n1 n2 : Nat) (s1 s2 : NodeState) (port1 port2 : Int) : World :=
  ainsert (ainsert (ainsert (ainsert w n1
    (addIntfS s1 (mkIntfName s1.name port1) (some port1))) n2
    (addIntfS s2 (mkIntfName s2.name port2) (some port2))) n1
    (registerIntfS (addIntfS s1 (mkIntfName s1.name port1) (some port1))
      (mkIntfName s1.name port1) n2 (mkIntfName s2.name port2))) n2
    (registerIntfS (addIntfS s2 (mkIntfName s2.name port2) (some port2))
      (mkIntfName s2.name port2) n1 (mkIntfName s1.name port1))

theorem stepLink_eq {w : World} {n1 n2 : Nat} {s1 s2 : NodeState}
    (hne : n1 ≠ n2) (h1 : alookup w n1 = some s1) (h2 : alookup w n2 = some s2)
    (p1 p2 : Option Int) :
    stepLink w n1 n2 p1 p2
      = some (linkResult w n1 n2 s1 s2 (p1.getD (newPort s1)) (p2.getD (newPort s2))) := by
  set port1 := p1.getD (newPort s1) with hport1
  set port2 := p2.getD (newPort s2) with hport2
  set intf1 := mkIntfName s1.name port1 with hintf1
  set intf2 := mkIntfName s2.name port2 with hintf2
  set t1 := addIntfS s1 intf1 (some port1) with ht1
  set t2 := addIntfS s2 intf2 (some port2) with ht2
  have hu1 : updW w n1 (fun s => some (addIntfS s intf1 (some port1)))
      = some (ainsert w n1 t1) := by
    unfold updW
    rw [h1]
    rfl
  have hu2 : updW (ainsert w n1 t1) n2 (fun s => some (addIntfS s intf2 (some port2)))
      = some (ainsert (ainsert w n1 t1) n2 t2) := by
    unfold updW
    rw [alookup_ainsert_ne _ _ (Ne.symm hne), h2]
    rfl
  have hu3 : updW (ainsert (ainsert w n1 t1) n2 t2) n1
      (fun s => some (registerIntfS s intf1 n2 intf2))
      = some (ainsert (ainsert (ainsert w n1 t1) n2 t2) n1
          (registerIntfS t1 intf1 n2 intf2)) := by
    unfold updW
    rw [alookup_ainsert_ne _ _ hne, alookup_ainsert_self]
    rfl
  have hu4 : updW (ainsert (ainsert (ainsert w n1 t1) n2 t2) n1
        (registerIntfS t1 intf1 n2 intf2)) n2
      (fun s => some (registerIntfS s intf2 n1 intf1))
      = some (ainsert (ainsert (ainsert (ainsert w n1 t1) n2 t2) n1
          (registerIntfS t1 intf1 n2 intf2)) n2 (registerIntfS t2 intf2 n1 intf1)) := by
    unfold updW
    rw [alookup_ainsert_ne _ _ (Ne.symm hne), alookup_ainsert_self]
    rfl
  unfold stepLink
  rw [h1, h2]
  show ((updW w n1 (fun s => some (addIntfS s intf1 (some port1)))).bind fun wa =>
      (updW wa n2 (fun s => some (addIntfS s intf2 (some port2)))).bind fun wb =>
      (updW wb n1 (fun s => some (registerIntfS s intf1 n2 intf2))).bind fun wc =>
      updW wc n2 (fun s => some (registerIntfS s intf2 n1 intf1)))
    = some (linkResult w n1 n2 s1 s2 port1 port2)
  rw [hu1]
  simp only [Option.some_bind]
  rw [hu2]
  simp only [Option.some_bind]
  rw [hu3]
  simp only [Option.some_bind]
  rw [hu4]
  rfl

def cex2World : World := [(0, ⟨str "a", 0, [], [], []⟩), (1, ⟨str "b", 0, [], [], []⟩)]

/-- C2, counterexample: the claim quantifies over nodes "with any pre-existing
interface/port/connection maps".  Start from two fresh nodes, link them once
(world `w1`), then link again and immediately unlink.  All three calls
succeed, but the unlink removes BOTH links (`deleteIntfsToNode` collects every
connection to the peer), so node 0's maps are not restored to their contents
in `w1`. -/
theorem claim2_counterexample :
    ((step cex2World (.linkTo 0 1 none none)).bind fun w1 =>
      (step w1 (.linkTo 0 1 none none)).bind fun w2 =>
      (step w2 (.unlinkFrom 0 (some 1))).map fun w3 =>
        decide (alookup w3 0 = alookup w1 0))
    = some false := by decide

/-- C2, amended: if A and B are distinct nodes, neither has a pre-existing
connection to the other, and the canonical port/name `linkTo` will allocate on
each side is fresh in that node's maps, then `link(A, B)` followed immediately
by `unlink(A, B)` restores both nodes' `intfs`, `ports` and connection maps
exactly. -/
theorem claim2_amended (w : World) (n1 n2 : Nat) (s1 s2 : NodeState)
    (hne : n1 ≠ n2)
    (h1 : alookup w n1 = some s1) (h2 : alookup w n2 = some s2)
    (hc1 : ∀ e ∈ s1.connection, e.2.1 ≠ n2)
    (hc2 : ∀ e ∈ s2.connection, e.2.1 ≠ n1)
    (hf1i : alookup s1.intfs (newPort s1) = none)
    (hf1p : alookup s1.ports (mkIntfName s1.name (newPort s1)) = none)
    (hf1c : alookup s1.connection (mkIntfName s1.name (newPort s1)) = none)
    (hf2i : alookup s2.intfs (newPort s2) = none)
    (hf2p : alookup s2.ports (mkIntfName s2.name (newPort s2)) = none)
    (hf2c : alookup s2.connection (mkIntfName s2.name (newPort s2)) = none) :
    ∃ w1 w2, step w (.linkTo n1 n2 none none) = some w1 ∧
      step w1 (.unlinkFrom n1 (some n2)) = some w2 ∧
      alookup w2 n1 = some s1 ∧ alookup w2 n2 = some s2 := by
  set port1 := newPort s1 with hport1
  set port2 := newPort s2 with hport2
  set intf1 := mkIntfName s1.name port1 with hintf1
  set intf2 := mkIntfName s2.name port2 with hintf2
  set t1 := addIntfS s1 intf1 (some port1) with ht1
  set t2 := addIntfS s2 intf2 (some port2) with ht2
  set r1 := registerIntfS t1 intf1 n2 intf2 with hr1
  set r2 := registerIntfS t2 intf2 n1 intf1 with hr2
  set wL := linkResult w n1 n2 s1 s2 port1 port2 with hwLs
  have hwLdef : wL = ainsert (ainsert (ainsert (ainsert w n1 t1) n2 t2) n1 r1) n2 r2 := rfl
  have hlink : step w (.linkTo n1 n2 none none) = some wL := by
    simp only [step]
    rw [stepLink_eq hne h1 h2 none none]
    rfl
  have hL1 : alookup wL n1 = some r1 := by
    rw [hwLdef, alookup_ainsert_ne _ _ hne, alookup_ainsert_self]
  have hL2 : alookup wL n2 = some r2 := by
    rw [hwLdef, alookup_ainsert_self]
  have hconn1 : r1.connection = s1.connection ++ [(intf1, (n2, intf2))] := by
    show ainsert t1.connection intf1 (n2, intf2) = _
    rw [show t1.connection = s1.connection from rfl]
    exact ainsert_fresh _ _ _ hf1c
  have hconn2 : r2.connection = s2.connection ++ [(intf2, (n1, intf1))] := by
    show ainsert t2.connection intf2 (n1, intf1) = _
    rw [show t2.connection = s2.connection from rfl]
    exact ainsert_fresh _ _ _ hf2c
  have hdel1 : deleteIntfsToNodeS r1 n2 r2.name none = some s1 := by
    unfold deleteIntfsToNodeS
    show (delListTo r1 n2 none).foldlM deleteIntfN r1 = some s1
    rw [delListTo_eq hc1 r1 hconn1, List.foldlM_cons]
    rw [show deleteIntfN r1 intf1 = some s1 from by
      rw [hr1, ht1, hintf1]
      exact deleteIntfN_restore s1 port1 n2 intf2 hf1i hf1p hf1c]
    simp only [Option.bind_eq_bind, Option.some_bind]
    rw [List.foldlM_nil]
    rfl
  have hdel2 : deleteIntfsToNodeS r2 n1 s1.name none = some s2 := by
    unfold deleteIntfsToNodeS
    show (delListTo r2 n1 none).foldlM deleteIntfN r2 = some s2
    rw [delListTo_eq hc2 r2 hconn2, List.foldlM_cons]
    rw [show deleteIntfN r2 intf2 = some s2 from by
      rw [hr2, ht2, hintf2]
      exact deleteIntfN_restore s2 port2 n1 intf1 hf2i hf2p hf2c]
    simp only [Option.bind_eq_bind, Option.some_bind]
    rw [List.foldlM_nil]
    rfl
  have hupd1 : updW wL n1 (fun s => deleteIntfsToNodeS s n2 r2.name none)
      = some (ainsert wL n1 s1) := by
    unfold updW
    rw [hL1]
    show (deleteIntfsToNodeS r1 n2 r2.name none).map (fun s' => ainsert wL n1 s') = _
    rw [hdel1]
    rfl
  have hA1 : alookup (ainsert wL n1 s1) n1 = some s1 := alookup_ainsert_self _ _ _
  have hA2 : alookup (ainsert wL n1 s1) n2 = some r2 := by
    rw [alookup_ainsert_ne _ _ (Ne.symm hne)]
    exact hL2
  have hupd2 : updW (ainsert wL n1 s1) n2 (fun s => deleteIntfsToNodeS s n1 s1.name none)
      = some (ainsert (ainsert wL n1 s1) n2 s2) := by
    unfold updW
    rw [hA2]
    show (deleteIntfsToNodeS r2 n1 s1.name none).map
      (fun s' => ainsert (ainsert wL n1 s1) n2 s') = _
    rw [hdel2]
    rfl
  have hone : stepUnlinkOne n1 wL n2 = some (ainsert (ainsert wL n1 s1) n2 s2) := by
    unfold stepUnlinkOne
    rw [hL2]
    show (updW wL n1 (fun s => deleteIntfsToNodeS s n2 r2.name none)).bind (fun w1 =>
        match alookup w1 n1 with
        | none => none
        | some sSelf => updW w1 n2 (fun s => deleteIntfsToNodeS s n1 sSelf.name none)) = _
    rw [hupd1]
    simp only [Option.some_bind]
    rw [hA1]
    show updW (ainsert wL n1 s1) n2 (fun s => deleteIntfsToNodeS s n1 s1.name none) = _
    exact hupd2
  have hunlink : step wL (.unlinkFrom n1 (some n2))
      = some (ainsert (ainsert wL n1 s1) n2 s2) := by
    simp only [step]
    unfold stepUnlink
    rw [hL1]
    show [n2].foldlM (stepUnlinkOne n1) wL = _
    rw [List.foldlM_cons, hone]
    simp only [Option.bind_eq_bind, Option.some_bind]
    rw [List.foldlM_nil]
    rfl
  refine ⟨wL, ainsert (ainsert wL n1 s1) n2 s2, hlink, hunlink, ?_, ?_⟩
  · rw [alookup_ainsert_ne _ _ hne]
    exact hA1
  · exact alookup_ainsert_self _ _ _

def cw2n1 : NodeState := ⟨str "h1", 0, [(7, str "h1-eth7")], [(str "h1-eth7", 7)], []⟩

def cw2n2 : NodeState := ⟨str "s1", 1, [], [], []⟩

/-- C2, witness: the amended round-trip law applied to a concrete pair of
nodes, one of which already owns an unrelated interface. -/
theorem claim2_witness :
    ∃ w1 w2, step [(0, cw2n1), (1, cw2n2)] (.linkTo 0 1 none none) = some w1 ∧
      step w1 (.unlinkFrom 0 (some 1)) = some w2 ∧
      alookup w2 0 = some cw2n1 ∧ alookup w2 1 = some cw2n2 :=
  claim2_amended [(0, cw2n1), (1, cw2n2)] 0 1 cw2n1 cw2n2 (by decide)
    (by decide) (by decide) (by decide) (by decide) (by decide) (by decide)
    (by decide) (by decide) (by decide) (by decide)

/-! ### Command channel: shell session state, read, sendCmd, monitor

Translated from the subshell I/O methods of class `Node`.  The subprocess's
output is scripted as a list of chunks (`stream`): one `os.read` consumes at
most the next chunk.  Writes to the shell are recorded in `written`. -/

structure Chan where
  waiting : Bool
  serial : Nat
  lastCmd : Option (List Char)
  lastPid : Option Int
  readbuf : List Char
  stream : List (List Char)
  written : List (List Char)
  deriving DecidableEq

/-- `os.read(fd, n)`: up to `n` bytes of the next available chunk; zero bytes
when nothing is available. -/
def osRead : List (List Char) → Nat → List Char × List (List Char)
  | [], _ => ([], [])
  | ch :: rest, n => if ch.length ≤ n then (ch, rest) else (ch.take n, ch.drop n :: rest)

/-- `Node.read`: buffered read drawing first from `readbuf`, then the
stream. -/
def readN (st : Chan) (n : Nat) : List Char × Chan :=
  let count := st.readbuf.length
  let (d, stream') := if count < n then osRead st.stream (n - count) else ([], st.stream)
  let buf := st.readbuf ++ d
  if n ≥ buf.length then (buf, { st with readbuf := [], stream := stream' })
  else (buf.take n, { st with readbuf := buf.drop n, stream := stream' })

/-- The data `Node.read` obtains from the underlying stream. -/
def readData (st : Chan) (n : Nat) : List Char :=
  if st.readbuf.length < n then (osRead st.stream (n - st.readbuf.length)).1 else []

/-- One scan of the pid-marker regex `chr(1)\d+\r\n` over a chunk: the list
of non-overlapping leftmost matches (`re.findall`) together with the text
with every match removed (`re.sub` with empty replacement). -/
def scanGo : Nat → List Char → List (List Char) × List Char
  | 0, s => ([], s)
  | _ + 1, [] => ([], [])
  | fuel + 1, c :: rest =>
    if c = ctlA then
      let ds := rest.takeWhile isPyDigit
      match rest.drop ds.length with
      | r1 :: r2 :: tail2 =>
        if ds ≠ [] ∧ r1 = crC ∧ r2 = lfC then
          ((ctlA :: (ds ++ [crC, lfC])) :: (scanGo fuel tail2).1, (scanGo fuel tail2).2)
        else
          ((scanGo fuel rest).1, c :: (scanGo fuel rest).2)
      | _ =>
        ((scanGo fuel rest).1, c :: (scanGo fuel rest).2)
    else
      ((scanGo fuel rest).1, c :: (scanGo fuel rest).2)

def scanMarkers (s : List Char) : List (List Char) × List Char := scanGo s.length s

/-- The pid `monitor` records from a chunk: `int(markers[0][1:])` when the
chunk contains `chr(1)` and the marker regex matches, nothing otherwise. -/
def pidOf (data : List Char) : Option Int :=
  if hasChar data ctlA then
    match (scanMarkers data).1 with
    | [] => none
    | m :: _ => some ((pyInt (m.drop 1)).getD 0)
  else none

/-- The chunk after `monitor`'s pid-marker stage: `re.sub(marker, '', data)`
when a marker matched, the chunk unchanged otherwise. -/
def pidClean (data : List Char) : List Char :=
  if hasChar data ctlA then
    match (scanMarkers data).1 with
    | [] => data
    | _ :: _ => (scanMarkers data).2
  else data

/-- `Node.monitor`: read a chunk, extract and strip a pid marker if present,
then detect and strip the completion sentinel, clearing `waiting`. -/
def monitor (st : Chan) : Chan × List Char :=
  let data := (readN st 1024).1
  let st1 := (readN st 1024).2
  let st2 :=
    match pidOf data with
    | none => st1
    | some v => { st1 with lastPid := some v }
  let d2 := pidClean data
  if d2 ≠ [] ∧ d2.getLast? = some sentCh then
    ({ st2 with waiting := false }, d2.dropLast)
  else if hasChar d2 sentCh then
    ({ st2 with waiting := false }, removeChar d2 sentCh)
  else (st2, d2)

/-- `Node.waitOutput` with `pattern=None`, bounded by fuel. -/
def waitOutput : Nat → Chan → Chan × List Char
  | 0, st => (st, [])
  | f + 1, st =>
    if st.waiting then
      ((waitOutput f (monitor st).1).1, (monitor st).2 ++ (waitOutput f (monitor st).1).2)
    else (st, [])

/-- Repeated `monitor` calls, collecting each returned chunk. -/
def runMonitors : Chan → Nat → Chan × List (List Char)
  | st, 0 => (st, [])
  | st, n + 1 =>
    ((runMonitors (monitor st).1 n).1, (monitor st).2 :: (runMonitors (monitor st).1 n).2)

def chanWrite (st : Chan) (s : List Char) : Chan :=
  { st with written := st.written ++ [s] }

/-- The line `'echo __   %s   __\n' % serial` sendCmd writes first. -/
def syncEchoLine (n : Nat) : List Char :=
  str "echo __   " ++ natRepr n ++ (str "   __" ++ [lfC])

/-- The marker `'__ %s __' % serial` sendCmd then scans for. -/
def syncMatch (n : Nat) : List Char := str "__ " ++ natRepr n ++ str " __"

/-- First resync loop of `sendCmd`: consume output up to and past the echo
marker; `none` models the loop never terminating (stream exhausted). -/
def resync1 : Nat → List Char → List Char → Chan → Option (List Char × Chan)
  | 0, _, _, _ => none
  | f + 1, mt, buf, st =>
    match findSub mt buf with
    | some i => some (buf.drop (i + mt.length), st)
    | none => resync1 f mt (buf ++ (readN st 1024).1) (readN st 1024).2

/-- Second resync loop of `sendCmd`: read until a sentinel byte is seen. -/
def resync2 : Nat → List Char → Chan → Option (List Char × Chan)
  | 0, _, _ => none
  | f + 1, buf, st =>
    if hasChar buf sentCh then some (buf, st)
    else resync2 f (buf ++ (readN st 1024).1) (readN st 1024).2

/-- Modelled from the spec: `isShellBuiltin` is imported from
mininet/util.py, which is not among the sources.  The spec (section 4.2)
says the pid-capture wrapping is applied "unless the command is a shell
built-in"; we model the check as: the first word of the first pipeline stage
is one of bash's built-in commands. -/
def shellBuiltins : List (List Char) :=
  [str "alias", str "cd", str "echo", str "eval", str "exec", str "exit",
   str "export", str "jobs", str "kill", str "printf", str "pwd", str "read",
   str "set", str "source", str "test", str "type", str "ulimit", str "umask",
   str "unset", str "wait"]

def isShellBuiltin (cmd : List Char) : Bool :=
  let stage := cmd.takeWhile (fun c => decide (c ≠ '|'))
  let stripped := stage.dropWhile (fun c => decide (c = ' '))
  let w := stripped.takeWhile (fun c => decide (c ≠ ' '))
  shellBuiltins.any (fun b => decide (b = w))

/-- Result of `sendCmd`: `violation` models the `assert not self.waiting`
failing (the spec's ProtocolViolation) with the state unchanged at the point
of the raise; `stuck` models a resync loop that never finds its marker. -/
inductive SendRes where
  | violation (st : Chan)
  | stuck
  | ok (st : Chan)
  deriving DecidableEq

/-- The part of `Node.sendCmd` after the assertion: write the numbered echo
marker, resynchronise, rewrite word-character-free commands to `echo -n`,
wrap non-builtins for pid capture, write the command, and (for `mn_wait`)
record it and enter the waiting state. -/
def sendCmdBody (fuel : Nat) (st1 : Chan) (cmd0 : List Char)
    (printPid useMnexec disableIObuf waitFlag : Bool) : SendRes :=
  match resync1 fuel (syncMatch st1.serial) [] st1 with
  | none => .stuck
  | some (buf, st3) =>
    match resync2 fuel buf st3 with
    | none => .stuck
    | some (_, st4) =>
      let cmd1 := if cmd0.any isWordChar then cmd0 else str "echo -n"
      let cmd2 := if printPid && !isShellBuiltin cmd1 then
          let cmdA := if useMnexec then str "mnexec -p " ++ cmd1 else cmd1
          if disableIObuf then str "stdbuf -i0 -o0 -e0 " ++ cmdA else cmdA
        else cmd1
      let st5 := chanWrite st4 (cmd2 ++ [lfC])
      if waitFlag then
        .ok { st5 with lastCmd := some cmd2, lastPid := none, waiting := true }
      else .ok st5

/-- `Node.sendCmd`. -/
def sendCmd (fuel : Nat) (st : Chan) (cmd0 : List Char)
    (printPid useMnexec disableIObuf waitFlag : Bool) : SendRes :=
  if st.waiting then .violation st
  else
    sendCmdBody fuel
      (chanWrite { st with serial := st.serial + 1 } (syncEchoLine (st.serial + 1)))
      cmd0 printPid useMnexec disableIObuf waitFlag

/-! ### Claim 3 -/

def cex3Node : NodeState :=
  ⟨str "n", 0, [(0, str "a-eth0")], [(str "a-eth0", 0)], []⟩

/-- C3, counterexample: `addIntf` with a port number that is already
registered does not fail — the source performs no duplicate check and raises
nothing — and it does not leave the maps unchanged: it overwrites `intfs[0]`
with the new name while the old name remains in `ports`. -/
theorem claim3_counterexample :
    addIntfS cex3Node (str "b-eth0") (some 0) ≠ cex3Node ∧
    alookup (addIntfS cex3Node (str "b-eth0") (some 0)).intfs 0 = some (str "b-eth0") ∧
    alookup (addIntfS cex3Node (str "b-eth0") (some 0)).ports (str "a-eth0") = some 0 := by
  refine ⟨by decide, by decide, by decide⟩

/-- C3, amended: `addIntf` with an already-registered port always succeeds:
it overwrites the `intfs` entry for that port in place, registers the new
name in `ports`, and leaves the previously registered interface name's
`ports` entry untouched (no `DuplicatePort` error exists in the code). -/
theorem claim3_amended (s : NodeState) (intf old : List Char) (p : Int)
    (_hp : alookup s.intfs p = some old) (hne : old ≠ intf) :
    alookup (addIntfS s intf (some p)).intfs p = some intf ∧
    alookup (addIntfS s intf (some p)).ports intf = some p ∧
    alookup (addIntfS s intf (some p)).ports old = alookup s.ports old := by
  refine ⟨?_, ?_, ?_⟩
  · rw [addIntfS_intfs]
    exact alookup_ainsert_self _ _ _
  · rw [addIntfS_ports]
    exact alookup_ainsert_self _ _ _
  · rw [addIntfS_ports]
    exact alookup_ainsert_ne _ _ hne

/-- C3, witness: the amended overwrite behaviour observed on a concrete
node that already maps port 0 to "a-eth0". -/
theorem claim3_witness :
    alookup (addIntfS cex3Node (str "b-eth0") (some 0)).intfs 0 = some (str "b-eth0") ∧
    alookup (addIntfS cex3Node (str "b-eth0") (some 0)).ports (str "b-eth0") = some 0 ∧
    alookup (addIntfS cex3Node (str "b-eth0") (some 0)).ports (str "a-eth0")
      = alookup cex3Node.ports (str "a-eth0") :=
  claim3_amended cex3Node (str "b-eth0") (str "a-eth0") 0 (by decide) (by decide)

/-! ### Claim 4 -/

/-- C4: sending a command while the channel is not idle — a second `sendCmd`
before the first command's completion sentinel has been observed, so
`waiting` is still true — fails immediately (the `assert not self.waiting`,
the spec's ProtocolViolation) with the channel state unchanged: in
particular `written` is untouched, so nothing of the second command reaches
the shell and no output of the two commands can interleave. -/
theorem claim4 (fuel : Nat) (st : Chan) (cmd : List Char)
    (pp um db wf : Bool) (h : st.waiting = true) :
    sendCmd fuel st cmd pp um db wf = .violation st := by
  unfold sendCmd
  rw [h]
  rfl

def chanBusy : Chan :=
  ⟨true, 3, some (str "sleep 10"), none, [], [], [str "sleep 10" ++ [lfC]]⟩

/-- C4, witness: a busy channel rejects a second send, returning the
violation with the state unchanged. -/
theorem claim4_witness :
    sendCmd 5 chanBusy (str "echo hi") true true false true = .violation chanBusy :=
  claim4 5 chanBusy (str "echo hi") true true false true (by decide)

/-! ### Claim 9 -/

/-- C9: `read(maxBytes)` returns at most `maxBytes` bytes; the returned data
is the `maxBytes`-ary first part of carry-over buffer followed by stream
data, and the remainder is preserved in the buffer (so nothing is lost or
duplicated: returned ++ new buffer = old buffer ++ data consumed from the
stream); when the buffer is empty and no stream data is available the call
returns zero bytes. -/
theorem claim9 (st : Chan) (n : Nat) :
    (readN st n).1.length ≤ n ∧
    (readN st n).1 = (st.readbuf ++ readData st n).take n ∧
    (readN st n).2.readbuf = (st.readbuf ++ readData st n).drop n ∧
    (readN st n).1 ++ (readN st n).2.readbuf = st.readbuf ++ readData st n ∧
    (readN { st with readbuf := [], stream := [] } n).1 = [] := by
  have hbody : readN st n
      = (if n ≥ (st.readbuf ++ readData st n).length
          then ((st.readbuf ++ readData st n),
            { st with readbuf := [],
                      stream := (if st.readbuf.length < n
                        then (osRead st.stream (n - st.readbuf.length)).2
                        else st.stream) })
          else ((st.readbuf ++ readData st n).take n,
            { st with readbuf := (st.readbuf ++ readData st n).drop n,
                      stream := (if st.readbuf.length < n
                        then (osRead st.stream (n - st.readbuf.length)).2
                        else st.stream) })) := by
    unfold readN readData
    by_cases hc : st.readbuf.length < n
    · simp only [if_pos hc]
    · simp only [if_neg hc, List.append_nil]
  refine ⟨?_, ?_, ?_, ?_, ?_⟩
  · rw [hbody]
    split
    · next hle => exact hle
    · next => simp [List.length_take]
  · rw [hbody]
    split
    · next hle => simp [List.take_of_length_le hle]
    · next => rfl
  · rw [hbody]
    split
    · next hle =>
      simp [List.drop_eq_nil_iff.mpr hle]
    · next => rfl
  · rw [hbody]
    split
    · next => simp
    · next => simp
  · show (readN { st with readbuf := [], stream := [] } n).1 = []
    unfold readN
    simp [osRead]

/-! ### Claim 8 -/

theorem readN_snd_fields (st : Chan) (n : Nat) :
    (readN st n).2.written = st.written ∧ (readN st n).2.serial = st.serial ∧
    (readN st n).2.lastCmd = st.lastCmd ∧ (readN st n).2.waiting = st.waiting ∧
    (readN st n).2.lastPid = st.lastPid := by
  unfold readN
  dsimp only
  split <;> split <;> exact ⟨rfl, rfl, rfl, rfl, rfl⟩

theorem resync1_fields : ∀ (f : Nat) (mt buf : List Char) (st : Chan)
    (r : List Char × Chan), resync1 f mt buf st = some r →
    r.2.written = st.written ∧ r.2.serial = st.serial ∧ r.2.lastCmd = st.lastCmd ∧
    r.2.waiting = st.waiting ∧ r.2.lastPid = st.lastPid := by
  intro f
  induction f with
  | zero => intro mt buf st r h; cases h
  | succ f ih =>
    intro mt buf st r h
    unfold resync1 at h
    split at h
    · next i hi =>
      cases Option.some.inj h
      exact ⟨rfl, rfl, rfl, rfl, rfl⟩
    · next =>
      obtain ⟨h1, h2, h3, h4, h5⟩ := ih _ _ _ _ h
      obtain ⟨g1, g2, g3, g4, g5⟩ := readN_snd_fields st 1024
      exact ⟨h1.trans g1, h2.trans g2, h3.trans g3, h4.trans g4, h5.trans g5⟩

theorem resync2_fields : ∀ (f : Nat) (buf : List Char) (st : Chan)
    (r : List Char × Chan), resync2 f buf st = some r →
    r.2.written = st.written ∧ r.2.serial = st.serial ∧ r.2.lastCmd = st.lastCmd ∧
    r.2.waiting = st.waiting ∧ r.2.lastPid = st.lastPid := by
  intro f
  induction f with
  | zero => intro buf st r h; cases h
  | succ f ih =>
    intro buf st r h
    unfold resync2 at h
    split at h
    · cases Option.some.inj h
      exact ⟨rfl, rfl, rfl, rfl, rfl⟩
    · obtain ⟨h1, h2, h3, h4, h5⟩ := ih _ _ _ h
      obtain ⟨g1, g2, g3, g4, g5⟩ := readN_snd_fields st 1024
      exact ⟨h1.trans g1, h2.trans g2, h3.trans g3, h4.trans g4, h5.trans g5⟩

theorem resync1_written : ∀ (f : Nat) (mt buf : List Char) (st : Chan)
    (r : List Char × Chan), resync1 f mt buf st = some r → r.2.written = st.written :=
  fun f mt buf st r h => (resync1_fields f mt buf st r h).1

/-- On a command with no word characters, the body of sendCmd writes exactly
the inert no-op line and records it as the last command. -/
theorem sendCmdBody_ok (fuel : Nat) (st1 : Chan) (cmd0 : List Char)
    (pp um : Bool) (st' : Chan)
    (hcmd : cmd0.any isWordChar = false)
    (h : sendCmdBody fuel st1 cmd0 pp um false true = .ok st') :
    st'.written = st1.written ++ [str "echo -n" ++ [lfC]] ∧
    st'.lastCmd = some (str "echo -n") ∧ st'.waiting = true := by
  unfold sendCmdBody at h
  split at h
  · cases h
  · next buf st3 heq1 =>
    split at h
    · cases h
    · next buf2 st4 heq2 =>
      rw [hcmd] at h
      dsimp only at h
      simp only [Bool.false_eq_true, if_false] at h
      rw [show isShellBuiltin (str "echo -n") = true from by decide] at h
      simp only [Bool.not_true, Bool.and_false, Bool.false_eq_true, if_false,
        if_true] at h
      have hst' := SendRes.ok.inj h
      subst hst'
      obtain ⟨w1, -, -, -, -⟩ := resync1_fields fuel _ [] st1 (buf, st3) heq1
      obtain ⟨w2, -, -, -, -⟩ := resync2_fields fuel buf st3 (buf2, st4) heq2
      refine ⟨?_, rfl, rfl⟩
      show (chanWrite st4 (str "echo -n" ++ [lfC])).written = _
      unfold chanWrite
      dsimp only
      rw [w2, w1]

/-- With the stream scripted to deliver just the completion sentinel, the
wait loop reaches the idle state and returns empty output. -/
theorem waitOutput_sentinel (st : Chan) (hw : st.waiting = true)
    (hb : st.readbuf = []) (hs : st.stream = [[sentCh]]) :
    (waitOutput 2 st).1.waiting = false ∧ (waitOutput 2 st).2 = [] := by
  have hmon : monitor st = ({ st with waiting := false, readbuf := [], stream := [] }, []) := by
    have hrn : readN st 1024 = ([sentCh], { st with readbuf := [], stream := [] }) := by
      unfold readN
      rw [hb, hs]
      simp [osRead]
    unfold monitor
    rw [hrn]
    simp [pidOf, pidClean, hasChar, ctlA, sentCh]
  unfold waitOutput
  rw [hw]
  simp only [if_true]
  rw [hmon]
  unfold waitOutput
  simp

/-- C8: a command containing no word characters is rewritten to the inert
no-op "echo -n" before being written to the shell: a successful `sendCmd` on
such a command writes exactly the numbered echo-marker line followed by
"echo -n\n" (no pid wrapper — echo is a shell built-in), records "echo -n"
as the last command and enters the waiting state; and when the scripted
shell response is just the completion sentinel, the wait loop returns to
Idle with empty accumulated output, so running such a command yields "". -/
theorem claim8 (fuel : Nat) (st : Chan) (cmd : List Char) (pp um : Bool) (st' : Chan)
    (hw : st.waiting = false)
    (hcmd : cmd.any isWordChar = false)
    (h : sendCmd fuel st cmd pp um false true = .ok st') :
    st'.written = st.written ++ [syncEchoLine (st.serial + 1), str "echo -n" ++ [lfC]] ∧
    st'.lastCmd = some (str "echo -n") ∧
    st'.waiting = true ∧
    (waitOutput 2 { st' with readbuf := [], stream := [[sentCh]] }).1.waiting = false ∧
    (waitOutput 2 { st' with readbuf := [], stream := [[sentCh]] }).2 = [] := by
  unfold sendCmd at h
  split at h
  case isTrue hcontra =>
    rw [hw] at hcontra
    simp at hcontra
  case isFalse =>
  obtain ⟨hwr, hlc, hwt⟩ := sendCmdBody_ok fuel _ cmd pp um st' hcmd h
  have hws : (chanWrite { st with serial := st.serial + 1 }
      (syncEchoLine (st.serial + 1))).written
      = st.written ++ [syncEchoLine (st.serial + 1)] := rfl
  rw [hws] at hwr
  obtain ⟨hwo1, hwo2⟩ := waitOutput_sentinel
    { st' with readbuf := [], stream := [[sentCh]] } hwt rfl rfl
  refine ⟨?_, hlc, hwt, hwo1, hwo2⟩
  rw [hwr]
  simp

def c8St : Chan := ⟨false, 0, none, none, [], [str "__ 1 __" ++ [sentCh]], []⟩

def c8Res : Chan :=
  ⟨true, 1, some (str "echo -n"), none, [], [],
   [syncEchoLine 1, str "echo -n" ++ [lfC]]⟩

/-- C8, witness: sending the all-whitespace command "   " on an idle channel
whose scripted stream contains the resync marker and a sentinel. -/
theorem claim8_witness :
    c8Res.written = c8St.written ++ [syncEchoLine 1, str "echo -n" ++ [lfC]] ∧
    c8Res.lastCmd = some (str "echo -n") ∧
    c8Res.waiting = true ∧
    (waitOutput 2 { c8Res with readbuf := [], stream := [[sentCh]] }).1.waiting = false ∧
    (waitOutput 2 { c8Res with readbuf := [], stream := [[sentCh]] }).2 = [] :=
  claim8 5 c8St (str "   ") true true c8Res (by decide) (by decide) (by decide)

/-! ### Claims 6 and 7: the pid-marker and sentinel stages of `monitor` -/

theorem hasChar_iff (s : List Char) (c : Char) : hasChar s c = true ↔ c ∈ s := by
  simp [hasChar]

theorem hasChar_false_iff (s : List Char) (c : Char) : hasChar s c = false ↔ c ∉ s := by
  constructor
  · intro h hc
    have h2 := (hasChar_iff s c).mpr hc
    rw [h] at h2
    cases h2
  · intro h
    cases hx : hasChar s c with
    | false => rfl
    | true => exact absurd ((hasChar_iff s c).mp hx) h

theorem hasChar_false_of_sublist {s t : List Char} {c : Char} (hsub : s.Sublist t)
    (h : hasChar t c = false) : hasChar s c = false :=
  (hasChar_false_iff s c).mpr (fun hc => (hasChar_false_iff t c).mp h (hsub.subset hc))

theorem take_len_takeWhile (p : Char → Bool) (l : List Char) :
    l.take (l.takeWhile p).length = l.takeWhile p := by
  induction l with
  | nil => rfl
  | cons a t ih =>
    by_cases hp : p a
    · rw [List.takeWhile_cons_of_pos hp, List.length_cons, List.take_succ_cons, ih]
    · rw [List.takeWhile_cons_of_neg hp, List.length_nil, List.take_zero]

theorem takeWhile_drop_decomp (p : Char → Bool) (l : List Char) :
    l.takeWhile p ++ l.drop (l.takeWhile p).length = l := by
  conv_rhs => rw [← List.take_append_drop (l.takeWhile p).length l]
  rw [take_len_takeWhile]

/-- The marker-stripping scan only deletes characters that can occur in a
marker match (`chr(1)`, digits, CR, LF): any other character survives. -/
theorem scanGo_mem_of (c : Char) (h1 : isPyDigit c = false) (h2 : c ≠ ctlA)
    (h3 : c ≠ crC) (h4 : c ≠ lfC) :
    ∀ (fuel : Nat) (s : List Char), c ∈ s → c ∈ (scanGo fuel s).2 := by
  intro fuel
  induction fuel with
  | zero => intro s h; exact h
  | succ f ih =>
    intro s hmem
    cases s with
    | nil => cases hmem
    | cons cc rest =>
      unfold scanGo
      by_cases hc : cc = ctlA
      · rw [if_pos hc]
        dsimp only
        cases hdrop : rest.drop (rest.takeWhile isPyDigit).length with
        | nil =>
          dsimp only
          rcases List.mem_cons.mp hmem with hcc | hr
          · subst hcc; exact List.mem_cons_self _ _
          · exact List.mem_cons_of_mem cc (ih rest hr)
        | cons r1 tl1 =>
          cases tl1 with
          | nil =>
            dsimp only
            rcases List.mem_cons.mp hmem with hcc | hr
            · subst hcc; exact List.mem_cons_self _ _
            · exact List.mem_cons_of_mem cc (ih rest hr)
          | cons r2 tail2 =>
            dsimp only
            by_cases hcond : rest.takeWhile isPyDigit ≠ [] ∧ r1 = crC ∧ r2 = lfC
            · rw [if_pos hcond]
              dsimp only
              have hrest : rest.takeWhile isPyDigit ++ r1 :: r2 :: tail2 = rest := by
                rw [← hdrop]
                exact takeWhile_drop_decomp isPyDigit rest
              rcases List.mem_cons.mp hmem with hcc | hr
              · exact absurd (hcc.trans hc) h2
              · rw [← hrest] at hr
                rcases List.mem_append.mp hr with hds | htl
                · have hd := List.mem_takeWhile_imp hds
                  rw [h1] at hd
                  cases hd
                · rcases List.mem_cons.mp htl with h5 | htl2
                  · exact absurd (h5.trans hcond.2.1) h3
                  · rcases List.mem_cons.mp htl2 with h6 | htl3
                    · exact absurd (h6.trans hcond.2.2) h4
                    · exact ih tail2 htl3
            · rw [if_neg hcond]
              dsimp only
              rcases List.mem_cons.mp hmem with hcc | hr
              · subst hcc; exact List.mem_cons_self _ _
              · exact List.mem_cons_of_mem cc (ih rest hr)
      · rw [if_neg hc]
        dsimp only
        rcases List.mem_cons.mp hmem with hcc | hr
        · subst hcc; exact List.mem_cons_self _ _
        · exact List.mem_cons_of_mem cc (ih rest hr)

/-- The pid-marker stage never deletes a non-marker character such as the
sentinel. -/
theorem mem_pidClean_of {c : Char} (d : List Char) (h1 : isPyDigit c = false)
    (h2 : c ≠ ctlA) (h3 : c ≠ crC) (h4 : c ≠ lfC) (hmem : c ∈ d) :
    c ∈ pidClean d := by
  unfold pidClean scanMarkers
  split
  · split
    · exact hmem
    · exact scanGo_mem_of c h1 h2 h3 h4 d.length d hmem
  · exact hmem

/-- `Node.read(1024)` on an empty buffer consumes exactly the next scripted
chunk when that chunk fits in the request. -/
theorem readN_chunk (st : Chan) (d : List Char) (rest : List (List Char))
    (hb : st.readbuf = []) (hs : st.stream = d :: rest) (hlen : d.length ≤ 1024) :
    readN st 1024 = (d, { st with readbuf := [], stream := rest }) := by
  unfold readN
  rw [hb, hs]
  simp [osRead, hlen]

def cex7Chunk : List Char := ['a', sentCh, 'b', sentCh]

def cex7St : Chan := ⟨true, 0, none, none, [], [cex7Chunk], []⟩

/-- C7, counterexample: on the chunk "a\x7fb\x7f" — whose final byte is the
sentinel but which also holds an interior sentinel — `monitor` clears
`waiting` yet the returned text "a\x7fb" still contains a sentinel byte: only
the final byte is stripped, refuting "strips every occurrence from the
returned text". -/
theorem claim7_counterexample :
    hasChar cex7Chunk sentCh = true ∧
    (monitor cex7St).1.waiting = false ∧
    hasChar (monitor cex7St).2 sentCh = true := by decide

/-- C7 (amended): when the sentinel byte appears in the chunk read while a
command is outstanding, `monitor` marks the command complete (`waiting`
becomes false), and the returned text is the marker-stripped chunk with the
sentinel removed only as follows: if the chunk's final byte is a sentinel,
exactly that final byte is dropped (interior sentinels survive); otherwise
every sentinel occurrence is removed. -/
theorem claim7_amended (st : Chan) (d : List Char) (rest : List (List Char))
    (_hw : st.waiting = true) (hb : st.readbuf = []) (hs : st.stream = d :: rest)
    (hlen : d.length ≤ 1024) (hsent : hasChar d sentCh = true) :
    (monitor st).1.waiting = false ∧
    (monitor st).2 = (if (pidClean d).getLast? = some sentCh
      then (pidClean d).dropLast
      else removeChar (pidClean d) sentCh) := by
  have hmem : sentCh ∈ pidClean d :=
    mem_pidClean_of d (by decide) (by decide) (by decide) (by decide)
      ((hasChar_iff d sentCh).mp hsent)
  have hsc : hasChar (pidClean d) sentCh = true := (hasChar_iff _ _).mpr hmem
  have hne : pidClean d ≠ [] := by
    intro hcon
    rw [hcon] at hmem
    cases hmem
  unfold monitor
  rw [readN_chunk st d rest hb hs hlen]
  dsimp only
  by_cases hlast : (pidClean d).getLast? = some sentCh
  · rw [if_pos ⟨hne, hlast⟩, if_pos hlast]
    exact ⟨rfl, rfl⟩
  · rw [if_neg (fun hcl => hlast hcl.2), if_neg hlast, if_pos hsc]
    exact ⟨rfl, rfl⟩

/-- C7, witness: the amended stripping law applied to the concrete chunk
"a\x7fb\x7f": the final sentinel is dropped, the interior one kept. -/
theorem claim7_witness :
    (monitor cex7St).1.waiting = false ∧
    (monitor cex7St).2 = (if (pidClean cex7Chunk).getLast? = some sentCh
      then (pidClean cex7Chunk).dropLast
      else removeChar (pidClean cex7Chunk) sentCh) :=
  claim7_amended cex7St cex7Chunk [] (by decide) (by decide) (by decide)
    (by decide) (by decide)

theorem scanGo_no_ctlA (fuel : Nat) : ∀ s : List Char, hasChar s ctlA = false →
    scanGo fuel s = ([], s) := by
  induction fuel with
  | zero => intro s _; rfl
  | succ f ih =>
    intro s h
    cases s with
    | nil => rfl
    | cons c rest =>
      have hnm := (hasChar_false_iff _ _).mp h
      have hc : c ≠ ctlA := fun hcc => hnm (List.mem_cons.mpr (Or.inl hcc.symm))
      have hrest : hasChar rest ctlA = false :=
        (hasChar_false_iff _ _).mpr (fun hm => hnm (List.mem_cons_of_mem _ hm))
      unfold scanGo
      dsimp only
      rw [if_neg hc, ih rest hrest]

theorem takeWhile_digits_stop (ds t : List Char)
    (hdsd : ∀ c ∈ ds, isPyDigit c = true) :
    (ds ++ crC :: t).takeWhile isPyDigit = ds := by
  induction ds with
  | nil =>
    rw [List.nil_append]
    exact List.takeWhile_cons_of_neg (by decide)
  | cons c tds ih =>
    rw [List.cons_append, List.takeWhile_cons_of_pos (hdsd c (List.mem_cons_self _ _)),
      ih (fun x hx => hdsd x (List.mem_cons_of_mem c hx))]

/-- The scan finds the single whole pid marker embedded between marker-free
segments and removes exactly its text. -/
theorem scanGo_marker : ∀ (a : List Char) (fuel : Nat) (ds b : List Char),
    a.length + 1 ≤ fuel →
    hasChar a ctlA = false → hasChar b ctlA = false →
    ds ≠ [] → (∀ c ∈ ds, isPyDigit c = true) →
    scanGo fuel (a ++ [ctlA] ++ ds ++ [crC, lfC] ++ b)
      = ([ctlA :: (ds ++ [crC, lfC])], a ++ b) := by
  intro a
  induction a with
  | nil =>
    intro fuel ds b hfuel ha hb hds hdsd
    cases fuel with
    | zero => exact absurd hfuel (by omega)
    | succ f =>
      have hshape : ([] : List Char) ++ [ctlA] ++ ds ++ [crC, lfC] ++ b
          = ctlA :: (ds ++ (crC :: lfC :: b)) := by simp
      rw [hshape]
      unfold scanGo
      dsimp only
      rw [if_pos rfl]
      rw [takeWhile_digits_stop ds (lfC :: b) hdsd]
      rw [List.drop_left]
      dsimp only
      rw [if_pos ⟨hds, rfl, rfl⟩]
      rw [scanGo_no_ctlA f b hb]
      rfl
  | cons c a' ih =>
    intro fuel ds b hfuel ha hb hds hdsd
    cases fuel with
    | zero => exact absurd hfuel (by omega)
    | succ f =>
      have hnm := (hasChar_false_iff _ _).mp ha
      have hc : c ≠ ctlA := fun hcc => hnm (List.mem_cons.mpr (Or.inl hcc.symm))
      have ha' : hasChar a' ctlA = false :=
        (hasChar_false_iff _ _).mpr (fun hm => hnm (List.mem_cons_of_mem _ hm))
      have hshape : (c :: a') ++ [ctlA] ++ ds ++ [crC, lfC] ++ b
          = c :: (a' ++ [ctlA] ++ ds ++ [crC, lfC] ++ b) := by simp
      rw [hshape]
      unfold scanGo
      dsimp only
      rw [if_neg hc]
      rw [ih f ds b
        (show a'.length + 1 ≤ f by simp only [List.length_cons] at hfuel; omega)
        ha' hb hds hdsd]
      rfl

theorem scanMarkers_single (a ds b : List Char) (ha : hasChar a ctlA = false)
    (hbb : hasChar b ctlA = false) (hds : ds ≠ [])
    (hdsd : ∀ c ∈ ds, isPyDigit c = true) :
    scanMarkers (a ++ [ctlA] ++ ds ++ [crC, lfC] ++ b)
      = ([ctlA :: (ds ++ [crC, lfC])], a ++ b) := by
  unfold scanMarkers
  refine scanGo_marker a _ ds b ?_ ha hbb hds hdsd
  simp only [List.length_append, List.length_cons, List.length_nil]
  omega

/-- A chunk with no `chr(1)` byte yields no pid and passes through the
marker stage untouched. -/
theorem pid_stage_no_ctlA (d : List Char) (hno : hasChar d ctlA = false) :
    pidOf d = none ∧ pidClean d = d := by
  constructor
  · unfold pidOf
    rw [hno]
    simp only [Bool.false_eq_true, if_false]
  · unfold pidClean
    rw [hno]
    simp only [Bool.false_eq_true, if_false]

/-- A chunk holding one whole pid marker yields that pid — the integer of
its digit run — and the marker stage strips exactly the marker text. -/
theorem pid_stage_marker (a ds b : List Char) (ha : hasChar a ctlA = false)
    (hbb : hasChar b ctlA = false) (hds : ds ≠ [])
    (hdsd : ∀ c ∈ ds, isPyDigit c = true) :
    pidOf (a ++ [ctlA] ++ ds ++ [crC, lfC] ++ b) = some ((digitsVal ds : Int)) ∧
    pidClean (a ++ [ctlA] ++ ds ++ [crC, lfC] ++ b) = a ++ b := by
  have hm : hasChar (a ++ [ctlA] ++ ds ++ [crC, lfC] ++ b) ctlA = true := by
    rw [hasChar_iff]
    simp
  constructor
  · unfold pidOf
    split
    · rw [scanMarkers_single a ds b ha hbb hds hdsd]
      show some ((pyInt (ds ++ [crC, lfC])).getD 0) = _
      rw [pyInt_digits_crlf ds hds hdsd]
      rfl
    · next h => exact absurd hm h
  · unfold pidClean
    split
    · rw [scanMarkers_single a ds b ha hbb hds hdsd]
    · next h => exact absurd hm h

/-- `monitor` on a marker-free chunk: no pid recorded, buffer stays empty,
the rest of the stream is untouched, and the returned text has no `chr(1)`. -/
theorem monitor_clean_chunk (st : Chan) (d : List Char) (rest : List (List Char))
    (hb : st.readbuf = []) (hs : st.stream = d :: rest) (hlen : d.length ≤ 1024)
    (hno : hasChar d ctlA = false) :
    (monitor st).1.lastPid = st.lastPid ∧ (monitor st).1.readbuf = [] ∧
    (monitor st).1.stream = rest ∧ hasChar (monitor st).2 ctlA = false := by
  unfold monitor
  rw [readN_chunk st d rest hb hs hlen]
  dsimp only
  rw [(pid_stage_no_ctlA d hno).1, (pid_stage_no_ctlA d hno).2]
  dsimp only
  split
  · exact ⟨rfl, rfl, rfl, hasChar_false_of_sublist (List.dropLast_sublist d) hno⟩
  · split
    · exact ⟨rfl, rfl, rfl, hasChar_false_of_sublist (List.filter_sublist d) hno⟩
    · exact ⟨rfl, rfl, rfl, hno⟩

/-- `monitor` on a chunk holding one whole pid marker: the pid is recorded,
and the returned text (the marker-stripped chunk, possibly sentinel-processed)
has no `chr(1)`. -/
theorem monitor_marker_chunk (st : Chan) (a ds b : List Char)
    (rest : List (List Char)) (hb : st.readbuf = [])
    (hs : st.stream = (a ++ [ctlA] ++ ds ++ [crC, lfC] ++ b) :: rest)
    (hlen : (a ++ [ctlA] ++ ds ++ [crC, lfC] ++ b).length ≤ 1024)
    (ha : hasChar a ctlA = false) (hbb : hasChar b ctlA = false)
    (hds : ds ≠ []) (hdsd : ∀ c ∈ ds, isPyDigit c = true) :
    (monitor st).1.lastPid = some ((digitsVal ds : Int)) ∧
    (monitor st).1.readbuf = [] ∧ (monitor st).1.stream = rest ∧
    hasChar (monitor st).2 ctlA = false := by
  have hab : hasChar (a ++ b) ctlA = false := by
    rw [hasChar_false_iff] at ha hbb ⊢
    intro hm
    rcases List.mem_append.mp hm with h | h
    · exact ha h
    · exact hbb h
  obtain ⟨hp1, hp2⟩ := pid_stage_marker a ds b ha hbb hds hdsd
  unfold monitor
  rw [readN_chunk st _ rest hb hs hlen]
  dsimp only
  rw [hp1, hp2]
  dsimp only
  split
  · exact ⟨rfl, rfl, rfl, hasChar_false_of_sublist (List.dropLast_sublist _) hab⟩
  · split
    · exact ⟨rfl, rfl, rfl, hasChar_false_of_sublist (List.filter_sublist _) hab⟩
    · exact ⟨rfl, rfl, rfl, hab⟩

/-- Poll runs compose: `m + n` polls are `m` polls followed by `n` polls
from the reached state, outputs concatenated. -/
theorem runMonitors_add (m n : Nat) : ∀ st : Chan,
    runMonitors st (m + n)
      = ((runMonitors (runMonitors st m).1 n).1,
         (runMonitors st m).2 ++ (runMonitors (runMonitors st m).1 n).2) := by
  induction m with
  | zero =>
    intro st
    rw [Nat.zero_add]
    show runMonitors st n = ((runMonitors st n).1, [] ++ (runMonitors st n).2)
    rw [List.nil_append]
  | succ m ih =>
    intro st
    have hms : m + 1 + n = m + n + 1 := by omega
    rw [hms]
    show ((runMonitors (monitor st).1 (m + n)).1,
        (monitor st).2 :: (runMonitors (monitor st).1 (m + n)).2) = _
    rw [ih (monitor st).1]
    show _ = ((runMonitors (runMonitors (monitor st).1 m).1 n).1,
        ((monitor st).2 :: (runMonitors (monitor st).1 m).2)
          ++ (runMonitors (runMonitors (monitor st).1 m).1 n).2)
    rw [List.cons_append]

/-- Polling through a run of marker-free chunks records no pid, keeps the
buffer empty, consumes exactly those chunks and returns only `chr(1)`-free
text. -/
theorem runMonitors_clean : ∀ (chunks : List (List Char)) (st : Chan)
    (rest : List (List Char)), st.readbuf = [] → st.stream = chunks ++ rest →
    (∀ ch ∈ chunks, hasChar ch ctlA = false ∧ ch.length ≤ 1024) →
    (runMonitors st chunks.length).1.lastPid = st.lastPid ∧
    (runMonitors st chunks.length).1.readbuf = [] ∧
    (runMonitors st chunks.length).1.stream = rest ∧
    (∀ out ∈ (runMonitors st chunks.length).2, hasChar out ctlA = false) := by
  intro chunks
  induction chunks with
  | nil =>
    intro st rest hb hs _
    refine ⟨rfl, hb, hs, ?_⟩
    intro out hout
    have hout2 : out ∈ ([] : List (List Char)) := hout
    cases hout2
  | cons ch chs ih =>
    intro st rest hb hs hcl
    obtain ⟨hcn, hclen⟩ := hcl ch (List.mem_cons_self _ _)
    have hs' : st.stream = ch :: (chs ++ rest) := hs
    obtain ⟨m1, m2, m3, m4⟩ := monitor_clean_chunk st ch (chs ++ rest) hb hs' hclen hcn
    obtain ⟨k1, k2, k3, k4⟩ := ih (monitor st).1 rest m2 m3
      (fun c hc => hcl c (List.mem_cons_of_mem _ hc))
    refine ⟨?_, k2, k3, ?_⟩
    · show (runMonitors (monitor st).1 chs.length).1.lastPid = st.lastPid
      rw [k1, m1]
    · intro out hout
      have hout2 : out ∈ (monitor st).2 :: (runMonitors (monitor st).1 chs.length).2 :=
        hout
      rcases List.mem_cons.mp hout2 with h | h
      · rw [h]
        exact m4
      · exact k4 out h

def cex6St : Chan :=
  ⟨true, 0, none, none, [], [[ctlA, '1', '2'], ['3', crC, lfC, sentCh]], []⟩

/-- C6, counterexample: the pid marker "\x01123\r\n" split across two read
chunks.  The marker's text occurs in the concatenation of the stream (the
single-chunk scan finds it) and the sentinel follows, yet polling the chunks
never records a pid: `lastPid` stays `None` rather than being set exactly
once. -/
theorem claim6_counterexample :
    (scanMarkers ([ctlA, '1', '2'] ++ ['3', crC, lfC, sentCh])).1 ≠ [] ∧
    (runMonitors cex6St 2).1.lastPid = none ∧
    (runMonitors cex6St 3).1.lastPid = none := by decide

/-- C6 (amended): when the pid marker arrives whole inside a single read
chunk — surrounded by marker-free data, every chunk within the 1024-byte
read size — the pid is recorded exactly once: it is absent after the polls
preceding the marker chunk, set to the marker's integer by the poll that
reads it, unchanged by the following polls, and no returned text contains
the marker byte `chr(1)`. -/
theorem claim6_amended (st : Chan) (pre post : List (List Char))
    (a ds b : List Char)
    (hb : st.readbuf = []) (hpid : st.lastPid = none)
    (hs : st.stream = pre ++ (a ++ [ctlA] ++ ds ++ [crC, lfC] ++ b) :: post)
    (hpre : ∀ ch ∈ pre, hasChar ch ctlA = false ∧ ch.length ≤ 1024)
    (hpost : ∀ ch ∈ post, hasChar ch ctlA = false ∧ ch.length ≤ 1024)
    (ha : hasChar a ctlA = false) (hbb : hasChar b ctlA = false)
    (hds : ds ≠ []) (hdsd : ∀ c ∈ ds, isPyDigit c = true)
    (hlen : (a ++ [ctlA] ++ ds ++ [crC, lfC] ++ b).length ≤ 1024) :
    (runMonitors st pre.length).1.lastPid = none ∧
    (runMonitors st (pre.length + 1)).1.lastPid = some ((digitsVal ds : Int)) ∧
    (runMonitors st (pre.length + 1 + post.length)).1.lastPid
      = some ((digitsVal ds : Int)) ∧
    (∀ out ∈ (runMonitors st (pre.length + 1 + post.length)).2,
      hasChar out ctlA = false) := by
  obtain ⟨r1, r2, r3, r4⟩ := runMonitors_clean pre st
    ((a ++ [ctlA] ++ ds ++ [crC, lfC] ++ b) :: post) hb hs hpre
  obtain ⟨m1, m2, m3, m4⟩ := monitor_marker_chunk (runMonitors st pre.length).1
    a ds b post r2 r3 hlen ha hbb hds hdsd
  obtain ⟨q1, q2, q3, q4⟩ := runMonitors_clean post
    (monitor (runMonitors st pre.length).1).1 [] m2
    (m3.trans (List.append_nil post).symm) hpost
  have hadd1 := runMonitors_add pre.length 1 st
  have hadd2 := runMonitors_add (pre.length + 1) post.length st
  have hfst1 : (runMonitors st (pre.length + 1)).1
      = (monitor (runMonitors st pre.length).1).1 := by
    rw [hadd1]
    rfl
  refine ⟨r1.trans hpid, ?_, ?_, ?_⟩
  · rw [hfst1]
    exact m1
  · rw [hadd2]
    show (runMonitors (runMonitors st (pre.length + 1)).1 post.length).1.lastPid = _
    rw [hfst1]
    exact q1.trans m1
  · intro out hout
    rw [hadd2, hfst1] at hout
    have hout2 : out ∈ (runMonitors st (pre.length + 1)).2
        ++ (runMonitors (monitor (runMonitors st pre.length).1).1 post.length).2 :=
      hout
    rcases List.mem_append.mp hout2 with h1 | h2
    · rw [hadd1] at h1
      have h1b : out ∈ (runMonitors st pre.length).2
          ++ [(monitor (runMonitors st pre.length).1).2] := h1
      rcases List.mem_append.mp h1b with hA | hB
      · exact r4 out hA
      · rcases List.mem_cons.mp hB with hB1 | hB2
        · rw [hB1]
          exact m4
        · cases hB2
    · exact q4 out h2

def c6wSt : Chan :=
  ⟨true, 0, none, none, [],
   [str "x", str "ab" ++ [ctlA] ++ str "42" ++ [crC, lfC] ++ str "cd", [sentCh]],
   []⟩

/-- C6, witness: the amended exactly-once law applied to a stream of three
chunks, the middle one carrying the whole marker "\x0142\r\n". -/
theorem claim6_witness :
    (runMonitors c6wSt 1).1.lastPid = none ∧
    (runMonitors c6wSt 2).1.lastPid = some ((digitsVal (str "42") : Int)) ∧
    (runMonitors c6wSt 3).1.lastPid = some ((digitsVal (str "42") : Int)) ∧
    (∀ out ∈ (runMonitors c6wSt 3).2, hasChar out ctlA = false) :=
  claim6_amended c6wSt [str "x"] [[sentCh]] (str "ab") (str "42") (str "cd")
    (by decide) (by decide) (by decide) (by decide) (by decide) (by decide)
    (by decide) (by decide) (by decide) (by decide)

/-! ### Claim 5: `UserSwitch.start` / `UserSwitch.stop`

Translated from `UserSwitch.start`, `UserSwitch.stop`, `Switch.startIntfs`
and `Node.deleteIntfs`.  `self.cmd` and `quietRun` are observed as the list
of issued command strings (`cmds`); neither method consults or records any
lifecycle state. -/

/-- Python string `<` comparison, by code point. -/
def pyStrLt : List Char → List Char → Bool
  | [], [] => false
  | [], _ :: _ => true
  | _ :: _, [] => false
  | c :: cs, d :: ds2 =>
    if c.toNat < d.toNat then true
    else if d.toNat < c.toNat then false
    else pyStrLt cs ds2

def insertSorted (x : List Char) : List (List Char) → List (List Char)
  | [] => [x]
  | y :: ys => if pyStrLt x y then x :: y :: ys else y :: insertSorted x ys

/-- Python `sorted` on a list of strings (stable, ascending). -/
def pySorted (l : List (List Char)) : List (List Char) :=
  l.foldr insertSorted []

/-- Python `sep.join(parts)`. -/
def joinWith (sep : List Char) : List (List Char) → List Char
  | [] => []
  | [x] => x
  | x :: xs => x ++ sep ++ joinWith sep xs

/-- A controller as `UserSwitch.start` consumes it: `c.IP()` and `c.port`. -/
structure Ctrl where
  ip : List Char
  port : Int
  deriving DecidableEq

/-- The observable state of a `UserSwitch` for the lifecycle claim: the
configuration `start`/`stop` read, plus every shell command issued so far. -/
structure USw where
  name : List Char
  inNamespace : Bool
  defaultMAC : Option (List Char)
  opts : List Char
  intfs : List (Int × List Char)
  cmds : List (List Char)
  deriving DecidableEq

/-- `mac_str`: `' -d ' + ''.join(self.defaultMAC.split(':'))` when
`self.defaultMAC` is truthy, `''` otherwise. -/
def macStr (dm : Option (List Char)) : List Char :=
  match dm with
  | none => []
  | some m => if m = [] then [] else str " -d " ++ removeChar m ':'

/-- `Switch.startIntfs`: `ifconfig lo up`, then one `ifconfig <intf> up` per
interface in map order. -/
def startIntfsCmds (sw : USw) : List (List Char) :=
  str "ifconfig lo up"
    :: sw.intfs.map (fun e => str "ifconfig " ++ e.2 ++ str " up")

/-- The `ofdatapath` launch command `UserSwitch.start` issues. -/
def ofdCmd (sw : USw) : List Char :=
  let ofdlog := str "/tmp/" ++ sw.name ++ str "-ofd.log"
  let intfNames := pySorted (sw.intfs.map (fun e => e.2))
  let intfNames2 := if sw.inNamespace then intfNames.dropLast else intfNames
  str "ofdatapath -i " ++ joinWith (str ",") intfNames2
    ++ str " punix:/tmp/" ++ sw.name ++ macStr sw.defaultMAC
    ++ str " --no-slicing " ++ str " 1> " ++ ofdlog ++ str " 2> " ++ ofdlog
    ++ str " &"

/-- The `ofprotocol` launch command `UserSwitch.start` issues. -/
def ofpCmd (sw : USw) (cs : List Ctrl) : List Char :=
  let ofplog := str "/tmp/" ++ sw.name ++ str "-ofp.log"
  str "ofprotocol unix:/tmp/" ++ sw.name
    ++ joinWith (str " ")
      (cs.map (fun c => str " tcp:" ++ c.ip ++ str ":" ++ intRepr c.port))
    ++ str " --fail=closed " ++ sw.opts
    ++ str " 1> " ++ ofplog ++ str " 2>" ++ ofplog ++ str " &"

/-- Every command one `UserSwitch.start` call issues, in order. -/
def uswStartCmds (sw : USw) (cs : List Ctrl) : List (List Char) :=
  startIntfsCmds sw ++ [ofdCmd sw, ofpCmd sw cs]

/-- `UserSwitch.start`. -/
def uswStart (sw : USw) (cs : List Ctrl) : USw :=
  { sw with cmds := sw.cmds ++ uswStartCmds sw cs }

/-- Every command one `UserSwitch.stop` call issues, in order: the two
`kill`s, then `Node.deleteIntfs`'s `ip link del` per interface. -/
def uswStopCmds (sw : USw) : List (List Char) :=
  str "kill %ofdatapath" :: str "kill %ofprotocol"
    :: sw.intfs.map (fun e => str "ip link del " ++ e.2)

/-- `UserSwitch.stop`. -/
def uswStop (sw : USw) : USw :=
  { sw with cmds := sw.cmds ++ uswStopCmds sw }

def cex5Sw : USw := ⟨str "s1", false, none, [], [(0, str "s1-eth0")], []⟩

/-- C5, counterexample: on a concrete switch, a second `start` does not
raise `InvalidTransition` — it re-issues the full backend launch sequence —
and `stop` on a switch that was never started is not a no-op: it issues the
`kill` and `ip link del` teardown commands. -/
theorem claim5_counterexample :
    (uswStart (uswStart cex5Sw []) []).cmds
      = uswStartCmds cex5Sw [] ++ uswStartCmds cex5Sw [] ∧
    (uswStop cex5Sw).cmds = uswStopCmds cex5Sw ∧
    uswStopCmds cex5Sw ≠ [] := by decide

/-- C5 (amended): `UserSwitch` keeps no lifecycle state.  `start` always
succeeds, appending exactly the interface-up, `ofdatapath` and `ofprotocol`
launch commands, so a second `start` repeats the identical sequence instead
of raising `InvalidTransition`; and `stop` — even on a switch that was never
started — always invokes the backend, appending the two `kill` commands
followed by an `ip link del` per interface, never a no-op. -/
theorem claim5_amended (sw : USw) (cs cs2 : List Ctrl) :
    (uswStart sw cs).cmds = sw.cmds ++ uswStartCmds sw cs ∧
    (uswStart (uswStart sw cs) cs2).cmds
      = sw.cmds ++ uswStartCmds sw cs ++ uswStartCmds sw cs2 ∧
    (uswStop sw).cmds = sw.cmds ++ uswStopCmds sw ∧
    uswStopCmds sw ≠ [] :=
  ⟨rfl, rfl, rfl, fun h => List.noConfusion h⟩

/-! ### Claim 10: `Node.defaultIntf` versus `Switch.defaultIntf` -/

/-- `Node.defaultIntf`: the interface for the lowest port; falls through to
`None` when the node has no interfaces. -/
def defaultIntfN (s : NodeState) : Option (List Char) :=
  match akeys s.intfs with
  | [] => none
  | k :: ks => alookup s.intfs (ks.foldl min k)

/-- `Switch.defaultIntf`: the interface for the highest port; on an empty
interface map the `if` body is skipped and the trailing `return intf` reads
a never-assigned local — `UnboundLocalError`, modelled as `.error ()`. -/
def defaultIntfSw (s : NodeState) : Except Unit (Option (List Char)) :=
  match akeys s.intfs with
  | [] => .error ()
  | k :: ks => .ok (alookup s.intfs (ks.foldl max k))

theorem foldl_min_mem : ∀ (ks : List Int) (k : Int), List.foldl min k ks ∈ k :: ks := by
  intro ks
  induction ks with
  | nil => intro k; exact List.mem_cons_self _ _
  | cons a t ih =>
    intro k
    show List.foldl min (min k a) t ∈ k :: a :: t
    rcases List.mem_cons.mp (ih (min k a)) with h | h
    · rcases min_choice k a with hm | hm
      · rw [h, hm]
        exact List.mem_cons_self _ _
      · rw [h, hm]
        exact List.mem_cons_of_mem _ (List.mem_cons_self _ _)
    · exact List.mem_cons_of_mem _ (List.mem_cons_of_mem _ h)

theorem foldl_min_le_init : ∀ (ks : List Int) (k : Int), List.foldl min k ks ≤ k := by
  intro ks
  induction ks with
  | nil => intro k; exact le_refl k
  | cons a t ih =>
    intro k
    show List.foldl min (min k a) t ≤ k
    exact le_trans (ih (min k a)) (min_le_left k a)

theorem foldl_min_le : ∀ (ks : List Int) (k q : Int), q ∈ k :: ks →
    List.foldl min k ks ≤ q := by
  intro ks
  induction ks with
  | nil =>
    intro k q hq
    rcases List.mem_cons.mp hq with h | h
    · rw [h]
      exact le_refl k
    · cases h
  | cons a t ih =>
    intro k q hq
    show List.foldl min (min k a) t ≤ q
    rcases List.mem_cons.mp hq with h1 | h2
    · rw [h1]
      exact le_trans (foldl_min_le_init t (min k a)) (min_le_left k a)
    · rcases List.mem_cons.mp h2 with h2a | h2t
      · rw [h2a]
        exact le_trans (foldl_min_le_init t (min k a)) (min_le_right k a)
      · exact ih (min k a) q (List.mem_cons_of_mem _ h2t)

theorem foldl_max_mem : ∀ (ks : List Int) (k : Int), List.foldl max k ks ∈ k :: ks := by
  intro ks
  induction ks with
  | nil => intro k; exact List.mem_cons_self _ _
  | cons a t ih =>
    intro k
    show List.foldl max (max k a) t ∈ k :: a :: t
    rcases List.mem_cons.mp (ih (max k a)) with h | h
    · rcases max_choice k a with hm | hm
      · rw [h, hm]
        exact List.mem_cons_self _ _
      · rw [h, hm]
        exact List.mem_cons_of_mem _ (List.mem_cons_self _ _)
    · exact List.mem_cons_of_mem _ (List.mem_cons_of_mem _ h)

theorem foldl_max_init_le : ∀ (ks : List Int) (k : Int), k ≤ List.foldl max k ks := by
  intro ks
  induction ks with
  | nil => intro k; exact le_refl k
  | cons a t ih =>
    intro k
    show k ≤ List.foldl max (max k a) t
    exact le_trans (le_max_left k a) (ih (max k a))

theorem le_foldl_max : ∀ (ks : List Int) (k q : Int), q ∈ k :: ks →
    q ≤ List.foldl max k ks := by
  intro ks
  induction ks with
  | nil =>
    intro k q hq
    rcases List.mem_cons.mp hq with h | h
    · rw [h]
      exact le_refl k
    · cases h
  | cons a t ih =>
    intro k q hq
    show q ≤ List.foldl max (max k a) t
    rcases List.mem_cons.mp hq with h1 | h2
    · rw [h1]
      exact le_trans (le_max_left k a) (foldl_max_init_le t (max k a))
    · rcases List.mem_cons.mp h2 with h2a | h2t
      · rw [h2a]
        exact le_trans (le_max_right k a) (foldl_max_init_le t (max k a))
      · exact ih (max k a) q (List.mem_cons_of_mem _ h2t)

/-- C10: on an empty interface map, `Node.defaultIntf` returns `None` while
`Switch.defaultIntf` hits the unbound-local error; on a nonempty map,
`Node.defaultIntf` returns the interface registered at the smallest port and
`Switch.defaultIntf` successfully returns the one at the largest port. -/
theorem claim10 (s : NodeState) :
    (s.intfs = [] →
      defaultIntfN s = none ∧ defaultIntfSw s = .error ()) ∧
    (s.intfs ≠ [] →
      ∃ pLo pHi vLo vHi,
        defaultIntfN s = some vLo ∧
        defaultIntfSw s = .ok (some vHi) ∧
        alookup s.intfs pLo = some vLo ∧
        alookup s.intfs pHi = some vHi ∧
        pLo ∈ akeys s.intfs ∧ pHi ∈ akeys s.intfs ∧
        (∀ q ∈ akeys s.intfs, pLo ≤ q ∧ q ≤ pHi)) := by
  constructor
  · intro he
    have hk : akeys s.intfs = [] := by rw [he]; rfl
    constructor
    · unfold defaultIntfN
      rw [hk]
    · unfold defaultIntfSw
      rw [hk]
  · intro hne
    have hkne : akeys s.intfs ≠ [] := by
      intro hcon
      apply hne
      cases hi : s.intfs with
      | nil => rfl
      | cons e t =>
        rw [hi] at hcon
        cases hcon
    obtain ⟨k, ks, hk⟩ : ∃ k ks, akeys s.intfs = k :: ks := by
      cases hak : akeys s.intfs with
      | nil => exact absurd hak hkne
      | cons k ks => exact ⟨k, ks, rfl⟩
    have hminmem : ks.foldl min k ∈ akeys s.intfs := by
      rw [hk]
      exact foldl_min_mem ks k
    have hmaxmem : ks.foldl max k ∈ akeys s.intfs := by
      rw [hk]
      exact foldl_max_mem ks k
    obtain ⟨vLo, hvLo⟩ := Option.isSome_iff_exists.mp
      ((alookup_isSome_iff s.intfs (ks.foldl min k)).mpr hminmem)
    obtain ⟨vHi, hvHi⟩ := Option.isSome_iff_exists.mp
      ((alookup_isSome_iff s.intfs (ks.foldl max k)).mpr hmaxmem)
    refine ⟨ks.foldl min k, ks.foldl max k, vLo, vHi, ?_, ?_, hvLo, hvHi,
      hminmem, hmaxmem, ?_⟩
    · unfold defaultIntfN
      rw [hk]
      exact hvLo
    · unfold defaultIntfSw
      rw [hk]
      show Except.ok (alookup s.intfs (ks.foldl max k)) = _
      rw [hvHi]
    · intro q hq
      rw [hk] at hq
      exact ⟨foldl_min_le ks k q hq, le_foldl_max ks k q hq⟩

def c10Host : NodeState :=
  ⟨str "h1", 0, [(2, str "h1-eth2"), (0, str "h1-eth0"), (1, str "h1-eth1")],
   [], []⟩

def c10Empty : NodeState := ⟨str "h2", 0, [], [], []⟩

/-- C10, witness: on an empty node the two behaviours diverge as stated, and
on a node with ports 2, 0, 1 the `Node` variant picks port 0's interface
while the `Switch` variant succeeds with port 2's. -/
theorem claim10_witness :
    (defaultIntfN c10Empty = none ∧ defaultIntfSw c10Empty = .error ()) ∧
    (∃ pLo pHi vLo vHi,
      defaultIntfN c10Host = some vLo ∧
      defaultIntfSw c10Host = .ok (some vHi) ∧
      alookup c10Host.intfs pLo = some vLo ∧
      alookup c10Host.intfs pHi = some vHi ∧
      pLo ∈ akeys c10Host.intfs ∧ pHi ∈ akeys c10Host.intfs ∧
      (∀ q ∈ akeys c10Host.intfs, pLo ≤ q ∧ q ≤ pHi)) :=
  ⟨(claim10 c10Empty).1 (by decide), (claim10 c10Host).2 (by decide)⟩

end Mininet

